import Mathlib

/-!
# http2smugl command line front end: embedding and verified properties

The development embeds `src/http2smugl.go`: the `request` and `detect`
sub-commands (their `RunE` closures), `unquoteArg` and `doAndPrintRequest`,
together with models of the Go library functions they call
(`strconv.Unquote`, `utf8.DecodeRuneInString`, `utf8.ValidString`,
`utf8.AppendRune`, `strings.SplitN`, `strings.Split`, `bytes.Split`,
`strings.ContainsRune`, `strings.TrimSpace`).

Conventions.

* A Go string or byte slice is its sequence of bytes, `Bytes = List Nat`: the
  arguments and flag values of the request command, header names and values,
  bodies and standard output. Nothing asks the bytes to be valid UTF-8.
* The targets of the detect command (its arguments and the lines of the
  targets file), which `strings.TrimSpace` reads rune by rune, are sequences
  of code points, `Text = List Char`: Go strings holding valid UTF-8.
  `toBytes` is the UTF-8 encoding of such a text, also used to write byte
  strings down as text.
* Effects are recorded in a `World`: the files read, the calls of `DoRequest`
  and `detectMultipleTargets`, and the chunks written to standard output (one
  for each `fmt.Printf` / `fmt.Println`), each in program order. A command
  maps a `World` to the error it returns and the `World` it leaves.
* `DoRequest` and `detectMultipleTargets` live in other files of the
  repository; the commands take them as parameters, as they take the file
  system.
-/

namespace Http2smugl

/-- Valid UTF-8 text: a Go string seen as its sequence of code points. -/
abbrev Text := List Char

/-- Raw bytes: a Go string or byte slice seen as its sequence of bytes. A byte
is a natural below 256; the definitions are total, and read a value from 256 on
as a byte that is not ASCII and leads no UTF-8 sequence. -/
abbrev Bytes := List Nat

/-! ## Go library: unicode/utf8 -/

/-- Go constant utf8.RuneSelf: bytes below it are characters of their own. -/
def RuneSelf : Nat := 0x80

/-- Go constant utf8.MaxRune. -/
def MaxRune : Nat := 0x10FFFF

/-- Go constant utf8.RuneError, U+FFFD. -/
def RuneError : Nat := 0xFFFD

/-- Go function utf8.ValidRune: in range and not a surrogate half. For an
int32 rune with the sign bit set the Go test `0 <= r` fails; as a natural
below 2^32 the same bit pattern exceeds `MaxRune`, so the answer agrees. -/
def ValidRune (r : Nat) : Bool :=
  r < 0xD800 || (0xDFFF < r && r ≤ MaxRune)

/-- Go function utf8.AppendRune: append the UTF-8 encoding of `r` to `p`;
out of range runes and surrogate halves are written as U+FFFD. -/
def AppendRune (p : Bytes) (r : Nat) : Bytes :=
  if r ≤ 0x7F then p ++ [r]
  else if r ≤ 0x7FF then p ++ [0xC0 + r / 64, 0x80 + r % 64]
  else if MaxRune < r ∨ (0xD800 ≤ r ∧ r ≤ 0xDFFF) then p ++ [0xEF, 0xBF, 0xBD]
  else if r ≤ 0xFFFF then p ++ [0xE0 + r / 4096, 0x80 + r / 64 % 64, 0x80 + r % 64]
  else p ++ [0xF0 + r / 262144, 0x80 + r / 4096 % 64, 0x80 + r / 64 % 64, 0x80 + r % 64]

/-- The bytes of a Go string holding the text `s` (its UTF-8 encoding). -/
def toBytes (s : Text) : Bytes :=
  s.flatMap (fun c => AppendRune [] c.toNat)

/-- The Go tables utf8.first and utf8.acceptRanges, for a byte that is not
ASCII: the size of the sequence it leads and the range its second byte must
lie in, or `none` for a byte that leads nothing (the entries `xx`: 0x80 to
0xC1 and 0xF5 to 0xFF). -/
def leadInfo (b : Nat) : Option (Nat × Nat × Nat) :=
  if 0xC2 ≤ b ∧ b ≤ 0xDF then some (2, 0x80, 0xBF)
  else if b = 0xE0 then some (3, 0xA0, 0xBF)
  else if 0xE1 ≤ b ∧ b ≤ 0xEC then some (3, 0x80, 0xBF)
  else if b = 0xED then some (3, 0x80, 0x9F)
  else if 0xEE ≤ b ∧ b ≤ 0xEF then some (3, 0x80, 0xBF)
  else if b = 0xF0 then some (4, 0x90, 0xBF)
  else if 0xF1 ≤ b ∧ b ≤ 0xF3 then some (4, 0x80, 0xBF)
  else if b = 0xF4 then some (4, 0x80, 0x8F)
  else none

/-- Go function utf8.DecodeRuneInString: the first rune of `s` and its width
in bytes; (RuneError, 0) for the empty string and (RuneError, 1) for a first
byte that starts no valid encoding. -/
def DecodeRuneInString (s : Bytes) : Nat × Nat :=
  match s with
  | [] => (RuneError, 0)
  | s0 :: rest =>
    if s0 < RuneSelf then (s0, 1)
    else
      match leadInfo s0 with
      | none => (RuneError, 1)
      | some (sz, lo, hi) =>
        if s.length < sz then (RuneError, 1)
        else
          match rest with
          | [] => (RuneError, 1)
          | s1 :: rest1 =>
            if s1 < lo ∨ hi < s1 then (RuneError, 1)
            else if sz ≤ 2 then (s0 % 32 * 64 + s1 % 64, 2)
            else
              match rest1 with
              | [] => (RuneError, 1)
              | s2 :: rest2 =>
                if s2 < 0x80 ∨ 0xBF < s2 then (RuneError, 1)
                else if sz ≤ 3 then (s0 % 16 * 4096 + s1 % 64 * 64 + s2 % 64, 3)
                else
                  match rest2 with
                  | [] => (RuneError, 1)
                  | s3 :: _ =>
                    if s3 < 0x80 ∨ 0xBF < s3 then (RuneError, 1)
                    else (s0 % 8 * 262144 + s1 % 64 * 4096 + s2 % 64 * 64 + s3 % 64, 4)

/-- The checks of utf8.ValidString, one byte at a time: `pending` is the
number of continuation bytes the sequence under way still needs, and `lo`,
`hi` bound the next of them (the range of the table for the second byte of a
sequence, 0x80 to 0xBF for the third and fourth). With nothing pending the
byte is ASCII or must lead a sequence. -/
def validFrom : Nat → Nat → Nat → Bytes → Bool
  | 0, _, _, [] => true
  | _ + 1, _, _, [] => false
  | 0, _, _, b :: rest =>
    if b < RuneSelf then validFrom 0 0 0 rest
    else
      match leadInfo b with
      | none => false
      | some (size, lo, hi) => validFrom (size - 1) lo hi rest
  | k + 1, lo, hi, b :: rest =>
    if b < lo ∨ hi < b then false else validFrom k 0x80 0xBF rest

/-- Go function utf8.ValidString: whether `s` is made of valid UTF-8
encodings only. -/
def ValidString (s : Bytes) : Bool :=
  validFrom 0 0 0 s

/-! ## Go library: strconv.Unquote -/

/-- Go function strconv.unhex: the value of one hexadecimal digit. -/
def unhex (c : Nat) : Option Nat :=
  if 48 ≤ c ∧ c ≤ 57 then some (c - 48)            -- '0' .. '9'
  else if 97 ≤ c ∧ c ≤ 102 then some (c - 97 + 10)  -- 'a' .. 'f'
  else if 65 ≤ c ∧ c ≤ 70 then some (c - 65 + 10)   -- 'A' .. 'F'
  else none

/-- The digit loop of the `\x`, `\u`, `\U` case of strconv.UnquoteChar: read
`n` hexadecimal digits, `v = v<<4 | x` for each. Fewer than `n` bytes left, or
a byte that is not a hexadecimal digit, is a syntax error. -/
def hexDigits : Nat → Bytes → Nat → Option (Nat × Bytes)
  | 0, s, v => some (v, s)
  | _ + 1, [], _ => none
  | n + 1, d :: s, v =>
    match unhex d with
    | none => none
    | some x => hexDigits n s (v * 16 + x)

/-- Go function strconv.UnquoteChar: decode the first character or escape
sequence of `s`; the result is (value, multibyte, tail), `none` is ErrSyntax.
`quote` is the surrounding quote byte. -/
def UnquoteChar (s : Bytes) (quote : Nat) : Option (Nat × Bool × Bytes) :=
  match s with
  | [] => none
  | c0 :: s1 =>
    if c0 = quote ∧ (quote = 39 ∨ quote = 34) then none
    else if RuneSelf ≤ c0 then
      some ((DecodeRuneInString s).1, true, s.drop (DecodeRuneInString s).2)
    else if c0 ≠ 92 then some (c0, false, s1)
    else
      -- hard case: c0 is a backslash
      match s1 with
      | [] => none
      | c :: s2 =>
        if c = 97 then some (7, false, s2)          -- \a
        else if c = 98 then some (8, false, s2)     -- \b
        else if c = 102 then some (12, false, s2)   -- \f
        else if c = 110 then some (10, false, s2)   -- \n
        else if c = 114 then some (13, false, s2)   -- \r
        else if c = 116 then some (9, false, s2)    -- \t
        else if c = 118 then some (11, false, s2)   -- \v
        else if c = 120 ∨ c = 117 ∨ c = 85 then     -- \x, \u, \U
          let n := if c = 120 then 2 else if c = 117 then 4 else 8
          match hexDigits n s2 0 with
          | none => none
          | some (v, s3) =>
            if c = 120 then some (v, false, s3)     -- single byte, maybe not UTF-8
            else if ValidRune v then some (v, true, s3)
            else none
        else if 48 ≤ c ∧ c ≤ 55 then                -- \0 .. \7: three octal digits
          match s2 with
          | d1 :: d2 :: s3 =>
            if 48 ≤ d1 ∧ d1 ≤ 55 ∧ 48 ≤ d2 ∧ d2 ≤ 55 then
              let v := ((c - 48) * 8 + (d1 - 48)) * 8 + (d2 - 48)
              if 255 < v then none else some (v, false, s3)
            else none
          | _ => none
        else if c = 92 then some (92, false, s2)    -- \\
        else if c = 39 ∨ c = 34 then                -- \' and \"
          if c ≠ quote then none else some (c, false, s2)
        else none

/-- The decoding loop of strconv.unquote for a double-quoted literal; `inp`
is the input after the opening quote. The result is the decoded bytes and what
follows the closing quote. Each round consumes at least one byte, so
`fuel = inp.length` rounds always suffice (`unquoteLoop_enough_fuel`). -/
def unquoteLoop : Nat → Bytes → Bytes → Option (Bytes × Bytes)
  | 0, _, _ => none
  | fuel + 1, inp, buf =>
    match inp with
    | [] => none                                    -- no terminating quote
    | c :: rest =>
      if c = 34 then some (buf, rest)               -- the terminating quote
      else
        match UnquoteChar inp 34 with
        | none => none
        | some (r, multibyte, rem) =>
          if c = 10 then none                       -- unescaped newline
          else
            unquoteLoop fuel rem
              (if r < RuneSelf ∨ multibyte = false then buf ++ [r % 256]
               else AppendRune buf r)

/-- Go call strconv.Unquote(`"` + s + `"`), the only way `unquoteArg` uses
strconv.Unquote: `none` is ErrSyntax. When the literal up to the first quote
byte holds no backslash and no newline and is valid UTF-8 it is returned as it
is; otherwise the decoding loop runs (a byte that starts no valid encoding is
decoded there as RuneError and written as EF BF BD). Anything left after the
closing quote is a syntax error. -/
def Unquote (s : Bytes) : Option Bytes :=
  let inp := s ++ [34]                                      -- in[1:]
  let lit := inp.takeWhile (fun c => c ≠ 34)                -- in[1 : end-1]
  let afterLit := (inp.dropWhile (fun c => c ≠ 34)).tail    -- in[end:]
  if (lit.all fun c => c ≠ 92 ∧ c ≠ 10) ∧ ValidString lit = true then
    if afterLit = [] then some lit else none
  else
    match unquoteLoop inp.length inp [] with
    | none => none
    | some (out, rem) => if rem = [] then some out else none

/-! ## http2smugl.go: unquoteArg -/

/-- Source function `unquoteArg` (lines 124-129): the decoded string when the
argument, put between double quotes, is a valid Go string literal; the
argument itself otherwise. -/
def unquoteArg (s : Bytes) : Bytes :=
  match Unquote s with
  | some decoded => decoded
  | none => s

/-! ## Go library: strings and bytes -/

/-- Go functions strings.SplitN and bytes.SplitN (genSplit) for a separator of
one byte and a count `n ≥ 0`: at most `n` pieces; the last piece is the
unsplit remainder. -/
def SplitN {α : Type} [DecidableEq α] (s : List α) (sep : α) : Nat → List (List α)
  | 0 => []
  | 1 => [s]
  | n + 2 =>
    match s.dropWhile (fun c => c ≠ sep) with
    | [] => [s]                                      -- Index(s, sep) < 0
    | _ :: rest => s.takeWhile (fun c => c ≠ sep) :: SplitN rest sep (n + 1)

/-- Go functions strings.Split and bytes.Split for a separator of one byte:
genSplit with `n = Count(s, sep) + 1`. -/
def Split {α : Type} [DecidableEq α] (s : List α) (sep : α) : List (List α) :=
  SplitN s sep (s.count sep + 1)

/-- Go function strings.ContainsRune for a rune below utf8.RuneSelf: a search
for the byte. -/
def ContainsRune (s : Bytes) (r : Nat) : Bool :=
  s.any (fun c => c = r)

/-- Go function unicode.IsSpace: the Latin-1 cases, then the White_Space
range table. -/
def IsSpace (c : Char) : Bool :=
  let r := c.toNat
  if r ≤ 0xFF then
    r = 9 ∨ r = 10 ∨ r = 11 ∨ r = 12 ∨ r = 13 ∨ r = 32 ∨ r = 0x85 ∨ r = 0xA0
  else
    r = 0x1680 ∨ (0x2000 ≤ r ∧ r ≤ 0x200A) ∨ r = 0x2028 ∨ r = 0x2029 ∨
      r = 0x202F ∨ r = 0x205F ∨ r = 0x3000

/-- Go function strings.TrimSpace on valid UTF-8 text: all leading and all
trailing white space removed. -/
def TrimSpace (s : Text) : Text :=
  (s.dropWhile IsSpace).rdropWhile IsSpace

/-! ## http2smugl.go: data -/

/-- Source type `Header`: a raw name/value pair. -/
structure Header where
  Name : Bytes
  Value : Bytes
  deriving DecidableEq

/-- Source type `RequestParams`, as filled in by the request command. -/
structure RequestParams where
  Target : Bytes
  Method : Bytes
  ConnectAddr : Bytes
  Headers : List Header
  NoAutoHeaders : Bool
  Body : Bytes
  Timeout : Int
  deriving DecidableEq

/-- The three results of `DoRequest`; `err` holds the text of `err.Error()`,
`none` is a nil error. -/
structure Response where
  headers : List Header
  body : Bytes
  err : Option Bytes
  deriving DecidableEq

/-- One call of `detectMultipleTargets` with its five arguments. -/
structure DetectCall where
  targets : List Text
  connectAddr : Bytes
  threads : Int
  timeout : Int
  verbose : Bool
  deriving DecidableEq

/-- The errors the two commands return. -/
inductive CmdError where
  /-- Cobra refuses the arguments: `Args: cobra.MinimumNArgs(1)`. -/
  | minimumNArgs
  /-- Message "cannot combine --method and --no-auto-headers". -/
  | cannotCombine
  /-- Message "both --body and --body-str specified". -/
  | bothBodies
  /-- The error of ioutil.ReadFile, with its text. -/
  | readFile (msg : Bytes)
  /-- Message "invalid header: " followed by the argument in Go syntax. -/
  | invalidHeader (h : Bytes)
  /-- The error of detectMultipleTargets, with its text. -/
  | detect (msg : Bytes)
  deriving DecidableEq

/-- The variables of `main` that the flags set. -/
structure Flags where
  timeout : Int
  connectAddr : Bytes
  bodyFile : Bytes
  bodyStr : Bytes
  requestMethod : Bytes
  noAutoHeaders : Bool
  bodyLines : Int
  silent : Bool
  threads : Int
  targetsFile : Bytes
  deriving DecidableEq

/-- The observable state: the captured variable `bodyToSend` and the record of
effects in program order. -/
structure World where
  bodyToSend : Bytes
  filesRead : List Bytes
  requests : List RequestParams
  detectCalls : List DetectCall
  stdout : List Bytes
  deriving DecidableEq

/-- What the request command runs against: the file system as seen by
ioutil.ReadFile (an error text or the bytes of the file) and `DoRequest`. -/
structure RequestEnv where
  ReadFile : Bytes → Except Bytes Bytes
  DoRequest : RequestParams → Response

/-- What the detect command runs against: the file system as seen by
ioutil.ReadFile followed by `string(data)` (an error text or the text of the
file, taken to be valid UTF-8) and `detectMultipleTargets` (its error text,
`none` for nil). -/
structure DetectEnv where
  ReadFile : Bytes → Except Bytes Text
  detectMultipleTargets : DetectCall → Option Bytes

/-! ## http2smugl.go: doAndPrintRequest -/

/-- The loop over `lines` at the end of `doAndPrintRequest` (lines 141-147):
`i` is the loop index, `out` the standard output so far; each `fmt.Println(string(l))` writes
the line and a newline, the `else` branch is the `break`. -/
def printBody : List Bytes → Nat → Int → List Bytes → List Bytes
  | [], _, _, out => out
  | l :: ls, i, bodyLines, out =>
    if bodyLines < 0 ∨ (i : Int) < bodyLines then
      printBody ls (i + 1) bodyLines (out ++ [l ++ [10]])
    else out

/-- Source function `doAndPrintRequest` (lines 131-148): the call of
`DoRequest` is recorded in `requests`, each `fmt.Printf` / `fmt.Println` adds
one chunk to `stdout`. -/
def doAndPrintRequest (DoRequest : RequestParams → Response) (params : RequestParams)
    (bodyLines : Int) (w : World) : World :=
  let r := DoRequest params
  let w := { w with requests := w.requests ++ [params] }
  let out := w.stdout
  let out :=
    match r.err with
    | some e => out ++ [toBytes "Error is ".toList ++ e ++ [10]]
    | none => out
  let out := r.headers.foldl
    (fun o h => o ++ [h.Name ++ toBytes ": ".toList ++ h.Value ++ [10]]) out
  let out := out ++ [[10]]
  let lines := Split r.body 10
  { w with stdout := printBody lines 0 bodyLines out }

/-! ## http2smugl.go: the request command -/

/-- The body of the header loop of the request command (lines 58-66), for the
argument `h` (58 is the colon): the header appended to `headers`, or the error returned. The two pieces of
`parts` are read with a default that is never used: `parts` has two elements
on both branches (the second split is of a string that contains a colon). -/
def headerOfArg (h : Bytes) : Except CmdError Header :=
  match SplitN h 58 2 with
  | [p0, p1] =>
    let parts : List Bytes :=
      if p0 = [] ∧ ContainsRune p1 58 = true then
        let parts2 := SplitN p1 58 2
        (58 :: parts2.getD 0 []) :: parts2.drop 1
      else [p0, p1]
    .ok (Header.mk (unquoteArg (parts.getD 0 [])) (unquoteArg (parts.getD 1 [])))
  | _ => .error (CmdError.invalidHeader h)

/-- The header loop of the request command, `for _, h := range args[1:]`
(lines 57-67): `headers` is the slice built so far; an error leaves the loop and the
command. -/
def headerLoop : List Bytes → List Header → Except CmdError (List Header)
  | [], headers => .ok headers
  | h :: rest, headers =>
    match headerOfArg h with
    | .error e => .error e
    | .ok hd => headerLoop rest (headers ++ [hd])

/-- The `RunE` closure of the request command (lines 38-79), with
`args = target :: headerArgs` (cobra has checked that there is at least one
argument). -/
def requestRunE (env : RequestEnv) (fl : Flags) (target : Bytes) (headerArgs : List Bytes)
    (w : World) : Option CmdError × World :=
  if fl.noAutoHeaders = true ∧ fl.requestMethod ≠ toBytes "GET".toList then
    (some CmdError.cannotCombine, w)
  else if fl.bodyFile ≠ [] then
    if fl.bodyStr ≠ [] then (some CmdError.bothBodies, w)
    else
      let w := { w with filesRead := w.filesRead ++ [fl.bodyFile] }
      match env.ReadFile fl.bodyFile with
      | .error e => (some (CmdError.readFile e), w)
      | .ok data => (none, { w with bodyToSend := data })  -- bodyToSend = data; return nil
  else
    let w := { w with bodyToSend := unquoteArg fl.bodyStr }
    match headerLoop headerArgs [] with
    | .error e => (some e, w)
    | .ok headers =>
      (none, doAndPrintRequest env.DoRequest
        { Target := target
          Method := unquoteArg fl.requestMethod
          ConnectAddr := fl.connectAddr
          Headers := headers
          NoAutoHeaders := fl.noAutoHeaders
          Body := w.bodyToSend
          Timeout := fl.timeout } fl.bodyLines w)

/-- The request command: the argument check of cobra, then `RunE`. -/
def requestCmd (env : RequestEnv) (fl : Flags) (args : List Bytes) (w : World) :
    Option CmdError × World :=
  match args with
  | [] => (some CmdError.minimumNArgs, w)
  | target :: headerArgs => requestRunE env fl target headerArgs w

/-! ## http2smugl.go: the detect command -/

/-- The loop over the lines of the targets file (lines 92-97): `targets` is the
slice built so far. -/
def targetsLoop : List Text → List Text → List Text
  | [], targets => targets
  | line :: rest, targets =>
    let line := TrimSpace line
    if line ≠ [] then targetsLoop rest (targets ++ [line])
    else targetsLoop rest targets

/-- The `RunE` closure of the detect command (lines 85-100). -/
def detectRunE (env : DetectEnv) (fl : Flags) (args : List Text) (w : World) :
    Option CmdError × World :=
  let call := fun (targets : List Text) (w : World) =>
    let c : DetectCall :=
      { targets := targets, connectAddr := fl.connectAddr, threads := fl.threads,
        timeout := fl.timeout, verbose := !fl.silent }
    ((env.detectMultipleTargets c).map CmdError.detect,
      { w with detectCalls := w.detectCalls ++ [c] })
  if fl.targetsFile ≠ [] then
    let w := { w with filesRead := w.filesRead ++ [fl.targetsFile] }
    match env.ReadFile fl.targetsFile with
    | .error e => (some (CmdError.readFile e), w)
    | .ok data => call (targetsLoop (Split data '\n') args) w
  else call args w

/-! ## Example inputs -/

/-- The flag defaults of `main`: timeout 10s, method GET, 10 body lines,
100 threads, everything else empty or false. -/
def defaultFlags : Flags :=
  { timeout := 10000000000, connectAddr := [], bodyFile := [], bodyStr := [],
    requestMethod := toBytes "GET".toList, noAutoHeaders := false, bodyLines := 10,
    silent := false, threads := 100, targetsFile := [] }

/-- The state before a command runs: nothing read, sent or printed. -/
def emptyWorld : World :=
  { bodyToSend := [], filesRead := [], requests := [], detectCalls := [], stdout := [] }

/-- A response with an error, two headers and a body of three lines. -/
def exampleResponse : Response :=
  { headers := [Header.mk (toBytes ":status".toList) (toBytes "502".toList),
                Header.mk (toBytes "server".toList) (toBytes "edge".toList)]
    body := toBytes "one\ntwo\nthree".toList
    err := some (toBytes "timeout".toList) }

/-- A file system where every file holds the three bytes "hi" and a newline,
and a `DoRequest` that always answers with `exampleResponse`. -/
def exampleEnv : RequestEnv :=
  { ReadFile := fun _ => .ok [104, 105, 10]
    DoRequest := fun _ => exampleResponse }

/-- A file system where every file holds two targets, with blank lines and
white space around them, and a `detectMultipleTargets` that succeeds. -/
def exampleDetectEnv : DetectEnv :=
  { ReadFile := fun _ => .ok "  https://a.example/ \r\n\n\thttps://b.example/\n".toList
    detectMultipleTargets := fun _ => none }

/-- The target of the examples. -/
def exampleUrl : Bytes := toBytes "https://example.com/".toList

/-! ## Vocabulary of the statements -/

/-- A string without backslash (92), double quote (34) and newline (10). -/
def EscapeFree (s : Bytes) : Prop :=
  ∀ c ∈ s, c ≠ 92 ∧ c ≠ 34 ∧ c ≠ 10

instance (s : Bytes) : Decidable (EscapeFree s) := by
  unfold EscapeFree; infer_instance

/-- A piece of a body string: a character standing for itself, or one of the
two escapes backslash-r and backslash-n. -/
inductive BodyTok where
  | plain (c : Char)
  | escR
  | escN
  deriving DecidableEq

/-- The bytes typed for a piece: the character, or a backslash (92) and the
letter r (114) or n (110). -/
def BodyTok.src : BodyTok → Bytes
  | .plain c => toBytes [c]
  | .escR => [92, 114]
  | .escN => [92, 110]

/-- The bytes a piece stands for: the byte of the character itself, a carriage
return (13), a line feed (10). -/
def BodyTok.dec : BodyTok → Bytes
  | .plain c => [c.toNat]
  | .escR => [13]
  | .escN => [10]

/-- A plain piece is a printable ASCII character other than the backslash and
the double quote. -/
def BodyTok.Printable : BodyTok → Prop
  | .plain c => 32 ≤ c.toNat ∧ c.toNat ≤ 126 ∧ c.toNat ≠ 92 ∧ c.toNat ≠ 34
  | .escR => True
  | .escN => True

instance (t : BodyTok) : Decidable t.Printable := by
  cases t <;> unfold BodyTok.Printable <;> infer_instance

/-- How many lines of a body of `k` lines are printed for the flag value
`bodyLines`: all of them for a negative value, at most `bodyLines`
otherwise. -/
def printedLines (bodyLines : Int) (k : Nat) : Nat :=
  if bodyLines < 0 then k else min bodyLines.toNat k

/-! ## Lemmas: UTF-8 -/

theorem AppendRune_eq_append (p : Bytes) (r : Nat) : AppendRune p r = p ++ AppendRune [] r := by
  unfold AppendRune
  split_ifs <;> simp

theorem toBytes_nil : toBytes [] = [] := rfl

theorem toBytes_cons (c : Char) (s : Text) :
    toBytes (c :: s) = AppendRune [] c.toNat ++ toBytes s := by
  simp [toBytes]

theorem toBytes_cons_ascii (c : Char) (s : Text) (h : c.toNat < 128) :
    toBytes (c :: s) = c.toNat :: toBytes s := by
  have h7 : c.toNat ≤ 0x7F := by omega
  simp [toBytes_cons, AppendRune, h7]

/-- What the table of lead bytes holds: sizes 2 to 4, second bytes from 0x80
on. -/
theorem leadInfo_some (b sz lo hi : Nat) (h : leadInfo b = some (sz, lo, hi)) :
    0x80 ≤ lo ∧ (sz = 2 ∨ sz = 3 ∨ sz = 4) := by
  unfold leadInfo at h
  split_ifs at h <;> simp at h <;> omega

/-- An ASCII byte in front does not change validity. -/
theorem ValidString_cons_ascii (c : Nat) (s : Bytes) (h : c < 0x80) :
    ValidString (c :: s) = ValidString s := by
  simp [ValidString, validFrom, RuneSelf, h]

/-- A string of ASCII bytes is valid UTF-8. -/
theorem ValidString_ascii (s : Bytes) (h : ∀ c ∈ s, c < 0x80) : ValidString s = true := by
  induction s with
  | nil => rfl
  | cons c s ih =>
    rw [ValidString_cons_ascii c s (h c (List.mem_cons_self _ _))]
    exact ih (fun d hd => h d (List.mem_cons_of_mem _ hd))

/-- The checks pass on a string cut at an ASCII byte only if they pass on the
part before it, with nothing left pending, and on the part after it. -/
theorem validFrom_of_append_ascii (c : Nat) (b : Bytes) (hc : c < 0x80) :
    ∀ (a : Bytes) (k lo hi : Nat), (0 < k → 0x80 ≤ lo) →
      validFrom k lo hi (a ++ c :: b) = true →
      validFrom k lo hi a = true ∧ ValidString b = true := by
  intro a
  induction a with
  | nil =>
    intro k lo hi hlo hv
    cases k with
    | zero =>
      simp only [List.nil_append, validFrom, RuneSelf, hc, if_true] at hv
      exact ⟨rfl, hv⟩
    | succ k =>
      have : c < lo := by have := hlo (by omega); omega
      simp [validFrom, this] at hv
  | cons x a ih =>
    intro k lo hi hlo hv
    cases k with
    | zero =>
      simp only [List.cons_append, validFrom] at hv ⊢
      by_cases hx : x < RuneSelf
      · simp only [hx, if_true] at hv ⊢
        exact ih 0 0 0 (by omega) hv
      · simp only [hx, if_false] at hv ⊢
        cases hl : leadInfo x with
        | none => simp [hl] at hv
        | some t =>
          obtain ⟨sz, lo2, hi2⟩ := t
          simp only [hl] at hv ⊢
          exact ih (sz - 1) lo2 hi2 (fun _ => (leadInfo_some x sz lo2 hi2 hl).1) hv
    | succ k =>
      simp only [List.cons_append, validFrom] at hv ⊢
      by_cases hx : x < lo ∨ hi < x
      · simp [hx] at hv
      · simp only [hx, if_false] at hv ⊢
        exact ih k 0x80 0xBF (fun _ => le_refl _) hv

/-- A valid string cut at an ASCII byte: both sides are valid. -/
theorem ValidString_of_append_ascii (c : Nat) (a b : Bytes) (hc : c < 0x80)
    (hv : ValidString (a ++ c :: b) = true) :
    ValidString a = true ∧ ValidString b = true :=
  validFrom_of_append_ascii c b hc a 0 0 0 (by omega) hv

theorem validFrom_zero (lo hi : Nat) (s : Bytes) :
    validFrom 0 lo hi s = validFrom 0 0 0 s := by
  cases s <;> simp [validFrom]

theorem validFrom_cont (k lo hi b : Nat) (s : Bytes) (h1 : lo ≤ b) (h2 : b ≤ hi) :
    validFrom (k + 1) lo hi (b :: s) = validFrom k 0x80 0xBF s := by
  have : ¬ (b < lo ∨ hi < b) := by omega
  simp [validFrom, this]

theorem validFrom_lead (b sz lo hi : Nat) (s : Bytes) (hb : 0x80 ≤ b)
    (h : leadInfo b = some (sz + 1, lo, hi)) :
    validFrom 0 0 0 (b :: s) = validFrom sz lo hi s := by
  have : ¬ b < RuneSelf := by simp [RuneSelf]; omega
  simp [validFrom, this, h]

theorem ValidString_seq2 (b0 b1 lo hi : Nat) (s : Bytes) (hb : 0x80 ≤ b0)
    (hl : leadInfo b0 = some (2, lo, hi)) (h1 : lo ≤ b1) (h1b : b1 ≤ hi) :
    ValidString (b0 :: b1 :: s) = ValidString s := by
  unfold ValidString
  rw [validFrom_lead b0 1 lo hi _ hb hl, validFrom_cont 0 lo hi b1 s h1 h1b, validFrom_zero]

theorem ValidString_seq3 (b0 b1 b2 lo hi : Nat) (s : Bytes) (hb : 0x80 ≤ b0)
    (hl : leadInfo b0 = some (3, lo, hi)) (h1 : lo ≤ b1) (h1b : b1 ≤ hi)
    (h2 : 0x80 ≤ b2) (h2b : b2 ≤ 0xBF) :
    ValidString (b0 :: b1 :: b2 :: s) = ValidString s := by
  unfold ValidString
  rw [validFrom_lead b0 2 lo hi _ hb hl, validFrom_cont 1 lo hi b1 _ h1 h1b,
    validFrom_cont 0 0x80 0xBF b2 s h2 h2b, validFrom_zero]

theorem ValidString_seq4 (b0 b1 b2 b3 lo hi : Nat) (s : Bytes) (hb : 0x80 ≤ b0)
    (hl : leadInfo b0 = some (4, lo, hi)) (h1 : lo ≤ b1) (h1b : b1 ≤ hi)
    (h2 : 0x80 ≤ b2) (h2b : b2 ≤ 0xBF) (h3 : 0x80 ≤ b3) (h3b : b3 ≤ 0xBF) :
    ValidString (b0 :: b1 :: b2 :: b3 :: s) = ValidString s := by
  unfold ValidString
  rw [validFrom_lead b0 3 lo hi _ hb hl, validFrom_cont 2 lo hi b1 _ h1 h1b,
    validFrom_cont 1 0x80 0xBF b2 _ h2 h2b, validFrom_cont 0 0x80 0xBF b3 s h3 h3b,
    validFrom_zero]

/-- The UTF-8 encoding of a character in front does not change validity. -/
theorem ValidString_AppendRune (c : Char) (s : Bytes) :
    ValidString (AppendRune [] c.toNat ++ s) = ValidString s := by
  have hval : c.toNat < 0xD800 ∨ (0xDFFF < c.toNat ∧ c.toNat < 0x110000) := c.valid
  generalize c.toNat = r at hval
  unfold AppendRune MaxRune
  split_ifs with h1 h2 h3 h4
  · simp only [List.nil_append, List.singleton_append]
    exact ValidString_cons_ascii _ _ (by omega)
  · have hl : leadInfo (0xC0 + r / 64) = some (2, 0x80, 0xBF) := by
      unfold leadInfo
      rw [if_pos (by omega)]
    simp only [List.nil_append, List.cons_append]
    exact ValidString_seq2 _ _ _ _ s (by omega) hl (by omega) (by omega)
  · omega
  · have hl : ∃ lo hi, leadInfo (0xE0 + r / 4096) = some (3, lo, hi) ∧
        lo ≤ 0x80 + r / 64 % 64 ∧ 0x80 + r / 64 % 64 ≤ hi := by
      unfold leadInfo
      split_ifs <;> first | omega | exact ⟨_, _, rfl, by omega, by omega⟩
    obtain ⟨lo, hi, hl, hlo, hhi⟩ := hl
    simp only [List.nil_append, List.cons_append]
    exact ValidString_seq3 _ _ _ _ _ s (by omega) hl hlo hhi (by omega) (by omega)
  · have hl : ∃ lo hi, leadInfo (0xF0 + r / 262144) = some (4, lo, hi) ∧
        lo ≤ 0x80 + r / 4096 % 64 ∧ 0x80 + r / 4096 % 64 ≤ hi := by
      have hq : r / 262144 = 0 ∨ r / 262144 = 1 ∨ r / 262144 = 2 ∨ r / 262144 = 3 ∨
          r / 262144 = 4 := by omega
      rcases hq with hq | hq | hq | hq | hq
      · exact ⟨0x90, 0xBF, by rw [hq]; rfl, by omega, by omega⟩
      · exact ⟨0x80, 0xBF, by rw [hq]; rfl, by omega, by omega⟩
      · exact ⟨0x80, 0xBF, by rw [hq]; rfl, by omega, by omega⟩
      · exact ⟨0x80, 0xBF, by rw [hq]; rfl, by omega, by omega⟩
      · exact ⟨0x80, 0x8F, by rw [hq]; rfl, by omega, by omega⟩
    obtain ⟨lo, hi, hl, hlo, hhi⟩ := hl
    simp only [List.nil_append, List.cons_append]
    exact ValidString_seq4 _ _ _ _ _ _ s (by omega) hl hlo hhi (by omega) (by omega)
      (by omega) (by omega)

/-- The UTF-8 encoding of a text is valid UTF-8. -/
theorem ValidString_toBytes (t : Text) : ValidString (toBytes t) = true := by
  induction t with
  | nil => rfl
  | cons c t ih => rw [toBytes_cons, ValidString_AppendRune, ih]

/-! ## Lemmas: the decoding loop of strconv.Unquote -/

/-- One round of the loop on an ASCII byte that is no quote, backslash or
newline: the byte is appended. -/
theorem unquoteLoop_plain (fuel : Nat) (c : Nat) (rest : Bytes) (buf : Bytes)
    (hc : c < 0x80) (h92 : c ≠ 92) (h34 : c ≠ 34) (h10 : c ≠ 10) :
    unquoteLoop (fuel + 1) (c :: rest) buf = unquoteLoop fuel rest (buf ++ [c]) := by
  have hlt : c < RuneSelf := by simpa [RuneSelf] using hc
  have hnot : ¬ RuneSelf ≤ c := by omega
  have hmod : c % 256 = c := by omega
  simp [unquoteLoop, UnquoteChar, h34, h10, h92, hnot, hlt, hmod]

/-- One round of the loop on the escape backslash-r: a carriage return. -/
theorem unquoteLoop_escR (fuel : Nat) (rest : Bytes) (buf : Bytes) :
    unquoteLoop (fuel + 1) (92 :: 114 :: rest) buf = unquoteLoop fuel rest (buf ++ [13]) := by
  simp [unquoteLoop, UnquoteChar, RuneSelf]

/-- One round of the loop on the escape backslash-n: a line feed. -/
theorem unquoteLoop_escN (fuel : Nat) (rest : Bytes) (buf : Bytes) :
    unquoteLoop (fuel + 1) (92 :: 110 :: rest) buf = unquoteLoop fuel rest (buf ++ [10]) := by
  simp [unquoteLoop, UnquoteChar, RuneSelf]

/-- The loop stops at the quote. -/
theorem unquoteLoop_quote (fuel : Nat) (rest : Bytes) (buf : Bytes) :
    unquoteLoop (fuel + 1) (34 :: rest) buf = some (buf, rest) := by
  simp [unquoteLoop]

/-- Bytes already in the buffer pass through the decoding loop untouched. -/
theorem unquoteLoop_buf (b : Bytes) :
    ∀ (fuel : Nat) (inp : Bytes) (buf : Bytes),
      unquoteLoop fuel inp (b ++ buf) =
        (unquoteLoop fuel inp buf).map (fun r => (b ++ r.1, r.2)) := by
  intro fuel
  induction fuel with
  | zero => intro inp buf; simp [unquoteLoop]
  | succ f ih =>
    intro inp buf
    cases inp with
    | nil => simp [unquoteLoop]
    | cons c rest =>
      simp only [unquoteLoop]
      by_cases hq : c = 34
      · simp [hq]
      · simp only [hq, if_false]
        cases hU : UnquoteChar (c :: rest) 34 with
        | none => simp
        | some t =>
          obtain ⟨r, mb, rem⟩ := t
          by_cases h10 : c = 10
          · simp [h10]
          · simp only [h10, if_false]
            have hbuf : (if r < RuneSelf ∨ mb = false then (b ++ buf) ++ [r % 256]
                else AppendRune (b ++ buf) r) =
                b ++ (if r < RuneSelf ∨ mb = false then buf ++ [r % 256]
                else AppendRune buf r) := by
              split_ifs
              · simp
              · rw [AppendRune_eq_append (b ++ buf), AppendRune_eq_append buf]; simp
            rw [hbuf, ih]

/-! ## Lemmas: the rounds of the decoding loop are enough -/

theorem DecodeRuneInString_size_pos (c : Nat) (s : Bytes) :
    1 ≤ (DecodeRuneInString (c :: s)).2 := by
  simp only [DecodeRuneInString]
  repeat' split
  all_goals simp

theorem hexDigits_length :
    ∀ (n : Nat) (s : Bytes) (v v2 : Nat) (s2 : Bytes),
      hexDigits n s v = some (v2, s2) → s2.length ≤ s.length := by
  intro n
  induction n with
  | zero =>
    intro s v v2 s2 h
    simp only [hexDigits, Option.some.injEq, Prod.mk.injEq] at h
    rw [h.2]
  | succ n ih =>
    intro s v v2 s2 h
    cases s with
    | nil => simp [hexDigits] at h
    | cons d s =>
      simp only [hexDigits] at h
      cases hu : unhex d with
      | none => simp [hu] at h
      | some x =>
        simp only [hu] at h
        have := ih s _ v2 s2 h
        simp only [List.length_cons]
        omega

theorem tail_shorter {r r2 : Nat} {mb mb2 : Bool} {t rem : Bytes} {n : Nat}
    (h : some (r2, mb2, t) = some (r, mb, rem)) (hn : t.length < n) : rem.length < n := by
  simp only [Option.some.injEq, Prod.mk.injEq] at h
  rw [← h.2.2]
  exact hn

/-- Every successful call of strconv.UnquoteChar consumes input. -/
theorem UnquoteChar_shorter (s : Bytes) (q r : Nat) (mb : Bool) (rem : Bytes)
    (h : UnquoteChar s q = some (r, mb, rem)) : rem.length < s.length := by
  cases s with
  | nil => simp [UnquoteChar] at h
  | cons c0 s1 =>
    unfold UnquoteChar at h
    dsimp only at h
    by_cases h1 : c0 = q ∧ (q = 39 ∨ q = 34)
    · rw [if_pos h1] at h
      exact absurd h (by simp)
    rw [if_neg h1] at h
    by_cases h2 : RuneSelf ≤ c0
    · rw [if_pos h2] at h
      have hpos := DecodeRuneInString_size_pos c0 s1
      exact tail_shorter h (by rw [List.length_drop, List.length_cons]; omega)
    rw [if_neg h2] at h
    by_cases h3 : c0 ≠ 92
    · rw [if_pos h3] at h
      exact tail_shorter h (by simp)
    rw [if_neg h3] at h
    cases s1 with
    | nil => exact absurd h (by simp)
    | cons c s2 =>
      dsimp only at h
      have hxx : ∀ {t : Bytes}, t.length ≤ s2.length → t.length < (c0 :: c :: s2).length := by
        intro t ht
        simp only [List.length_cons]
        omega
      by_cases e97 : c = 97
      · rw [if_pos e97] at h
        exact tail_shorter h (hxx (le_refl _))
      rw [if_neg e97] at h
      by_cases e98 : c = 98
      · rw [if_pos e98] at h
        exact tail_shorter h (hxx (le_refl _))
      rw [if_neg e98] at h
      by_cases e102 : c = 102
      · rw [if_pos e102] at h
        exact tail_shorter h (hxx (le_refl _))
      rw [if_neg e102] at h
      by_cases e110 : c = 110
      · rw [if_pos e110] at h
        exact tail_shorter h (hxx (le_refl _))
      rw [if_neg e110] at h
      by_cases e114 : c = 114
      · rw [if_pos e114] at h
        exact tail_shorter h (hxx (le_refl _))
      rw [if_neg e114] at h
      by_cases e116 : c = 116
      · rw [if_pos e116] at h
        exact tail_shorter h (hxx (le_refl _))
      rw [if_neg e116] at h
      by_cases e118 : c = 118
      · rw [if_pos e118] at h
        exact tail_shorter h (hxx (le_refl _))
      rw [if_neg e118] at h
      by_cases ehex : c = 120 ∨ c = 117 ∨ c = 85
      · rw [if_pos ehex] at h
        cases hh : hexDigits (if c = 120 then 2 else if c = 117 then 4 else 8) s2 0 with
        | none =>
          rw [hh] at h
          exact absurd h (by simp)
        | some t =>
          obtain ⟨v, s3⟩ := t
          have hl := hexDigits_length _ _ _ _ _ hh
          rw [hh] at h
          dsimp only at h
          by_cases ex : c = 120
          · rw [if_pos ex] at h
            exact tail_shorter h (hxx hl)
          rw [if_neg ex] at h
          by_cases ev : ValidRune v = true
          · rw [if_pos ev] at h
            exact tail_shorter h (hxx hl)
          rw [if_neg ev] at h
          exact absurd h (by simp)
      rw [if_neg ehex] at h
      by_cases eoct : 48 ≤ c ∧ c ≤ 55
      · rw [if_pos eoct] at h
        cases s2 with
        | nil => exact absurd h (by simp)
        | cons d1 s2b =>
          cases s2b with
          | nil => exact absurd h (by simp)
          | cons d2 s3 =>
            dsimp only at h
            by_cases ed : 48 ≤ d1 ∧ d1 ≤ 55 ∧ 48 ≤ d2 ∧ d2 ≤ 55
            · rw [if_pos ed] at h
              by_cases e255 : 255 < ((c - 48) * 8 + (d1 - 48)) * 8 + (d2 - 48)
              · rw [if_pos e255] at h
                exact absurd h (by simp)
              rw [if_neg e255] at h
              exact tail_shorter h (hxx (by simp only [List.length_cons]; omega))
            rw [if_neg ed] at h
            exact absurd h (by simp)
      rw [if_neg eoct] at h
      by_cases e92 : c = 92
      · rw [if_pos e92] at h
        exact tail_shorter h (hxx (le_refl _))
      rw [if_neg e92] at h
      by_cases eq : c = 39 ∨ c = 34
      · rw [if_pos eq] at h
        by_cases ene : c ≠ q
        · rw [if_pos ene] at h
          exact absurd h (by simp)
        rw [if_neg ene] at h
        exact tail_shorter h (hxx (le_refl _))
      rw [if_neg eq] at h
      exact absurd h (by simp)

/-- One round more than the input is long changes nothing: the loop never
runs out of rounds before it runs out of input. -/
theorem unquoteLoop_fuel :
    ∀ (fuel : Nat) (inp : Bytes) (buf : Bytes), inp.length ≤ fuel →
      unquoteLoop (fuel + 1) inp buf = unquoteLoop fuel inp buf := by
  intro fuel
  induction fuel with
  | zero =>
    intro inp buf hl
    have : inp = [] := List.length_eq_zero.mp (by omega)
    subst this
    simp [unquoteLoop]
  | succ f ih =>
    intro inp buf hl
    cases inp with
    | nil => simp [unquoteLoop]
    | cons c rest =>
      rw [unquoteLoop, unquoteLoop]
      by_cases hq : c = 34
      · simp [hq]
      · simp only [hq, if_false]
        cases hU : UnquoteChar (c :: rest) 34 with
        | none => rfl
        | some t =>
          obtain ⟨r, mb, rem⟩ := t
          have hs := UnquoteChar_shorter _ _ _ _ _ hU
          simp only [List.length_cons] at hs hl
          by_cases h10 : c = 10
          · simp [h10]
          · simp only [h10, if_false]
            exact ih rem _ (by omega)

/-- The result of the decoding loop does not depend on the number of rounds
allowed, from the length of the input on: the rounds `Unquote` allows are
enough. -/
theorem unquoteLoop_enough_fuel (inp : Bytes) (buf : Bytes) :
    ∀ k : Nat, unquoteLoop (inp.length + k) inp buf = unquoteLoop inp.length inp buf := by
  intro k
  induction k with
  | zero => rfl
  | succ k ih =>
    rw [← Nat.add_assoc, unquoteLoop_fuel (inp.length + k) inp buf (by omega), ih]

/-! ## Lemmas: cutting at a byte -/

theorem takeWhile_ne_cut {α : Type} [DecidableEq α] (a b : List α) (sep : α) (h : sep ∉ a) :
    (a ++ sep :: b).takeWhile (fun c => c ≠ sep) = a := by
  induction a with
  | nil => simp
  | cons x a ih =>
    have hx : x ≠ sep := fun e => h (e ▸ List.mem_cons_self _ _)
    have ha : sep ∉ a := fun m => h (List.mem_cons_of_mem _ m)
    rw [List.cons_append, List.takeWhile_cons, ih ha]
    simp [hx]

theorem dropWhile_ne_cut {α : Type} [DecidableEq α] (a b : List α) (sep : α) (h : sep ∉ a) :
    (a ++ sep :: b).dropWhile (fun c => c ≠ sep) = sep :: b := by
  induction a with
  | nil => simp
  | cons x a ih =>
    have hx : x ≠ sep := fun e => h (e ▸ List.mem_cons_self _ _)
    have ha : sep ∉ a := fun m => h (List.mem_cons_of_mem _ m)
    rw [List.cons_append, List.dropWhile_cons, ih ha]
    simp [hx]

theorem dropWhile_ne_of_not_mem {α : Type} [DecidableEq α] (s : List α) (sep : α)
    (h : sep ∉ s) : s.dropWhile (fun c => c ≠ sep) = [] := by
  rw [List.dropWhile_eq_nil_iff]
  intro x hx
  have : x ≠ sep := fun e => h (e ▸ hx)
  simpa using this

/-- A list that holds the separator, cut at its first occurrence. -/
theorem exists_first_cut {α : Type} [DecidableEq α] (s : List α) (sep : α) (h : sep ∈ s) :
    ∃ a b, s = a ++ sep :: b ∧ sep ∉ a := by
  induction s with
  | nil => simp at h
  | cons x s ih =>
    by_cases hx : x = sep
    · exact ⟨[], s, by simp [hx], by simp⟩
    · have hs : sep ∈ s := by
        rcases List.mem_cons.mp h with e | m
        · exact absurd e.symm hx
        · exact m
      obtain ⟨a, b, rfl, ha⟩ := ih hs
      refine ⟨x :: a, b, by simp, ?_⟩
      intro m
      rcases List.mem_cons.mp m with e | m
      · exact hx e.symm
      · exact ha m

/-! ## Lemmas: unquoteArg -/

/-- A string without a quote byte is returned by strconv.Unquote as it is
when it holds no backslash and no newline and is valid UTF-8, and is decoded
by the loop otherwise. -/
theorem Unquote_of_no_quote (s : Bytes) (h34 : 34 ∉ s) :
    Unquote s =
      if (s.all fun c => c ≠ 92 ∧ c ≠ 10) ∧ ValidString s = true then some s
      else
        match unquoteLoop (s.length + 1) (s ++ [34]) [] with
        | none => none
        | some (out, rem) => if rem = [] then some out else none := by
  unfold Unquote
  simp only [takeWhile_ne_cut s [] 34 h34, dropWhile_ne_cut s [] 34 h34, List.tail_cons,
    List.length_append, List.length_singleton, if_true]

/-- Escape-free valid UTF-8 is a literal that needs no decoding. -/
theorem Unquote_escapeFree (s : Bytes) (h : EscapeFree s) (hv : ValidString s = true) :
    Unquote s = some s := by
  have h34 : 34 ∉ s := fun hm => (h 34 hm).2.1 rfl
  have hall : (s.all fun c => c ≠ 92 ∧ c ≠ 10) = true := by
    rw [List.all_eq_true]
    intro c hc
    have := h c hc
    simp [this.1, this.2.2]
  rw [Unquote_of_no_quote s h34, if_pos ⟨hall, hv⟩]

/-- Source function `unquoteArg` on escape-free valid UTF-8: the argument,
unchanged. -/
theorem unquoteArg_escapeFree (s : Bytes) (h : EscapeFree s) (hv : ValidString s = true) :
    unquoteArg s = s := by
  simp [unquoteArg, Unquote_escapeFree s h hv]

/-- A leading colon is decoded to itself, whatever follows. -/
theorem unquoteArg_colon_cons (n : Bytes) : unquoteArg (58 :: n) = 58 :: unquoteArg n := by
  have hloop : unquoteLoop ((58 :: n) ++ [34]).length ((58 :: n) ++ [34]) [] =
      (unquoteLoop (n ++ [34]).length (n ++ [34]) []).map
        (fun r => ([58] ++ r.1, r.2)) := by
    rw [List.cons_append, List.length_cons,
      unquoteLoop_plain _ _ _ _ (by omega) (by omega) (by omega) (by omega)]
    have h58 : ([] : Bytes) ++ [58] = [58] ++ [] := rfl
    rw [h58, unquoteLoop_buf]
  have htake : ((58 :: n) ++ [34]).takeWhile (fun c => c ≠ 34) =
      58 :: (n ++ [34]).takeWhile (fun c => c ≠ 34) := by
    rw [List.cons_append, List.takeWhile_cons]; simp
  have hdrop : ((58 :: n) ++ [34]).dropWhile (fun c => c ≠ 34) =
      (n ++ [34]).dropWhile (fun c => c ≠ 34) := by
    rw [List.cons_append, List.dropWhile_cons]; simp
  have hUnq : Unquote (58 :: n) = (Unquote n).map (fun d => 58 :: d) := by
    unfold Unquote
    simp only [hloop, htake, hdrop, ValidString_cons_ascii 58 _ (by omega), List.all_cons]
    by_cases hcond : ((n ++ [34]).takeWhile (fun c => c ≠ 34)).all
        (fun c => c ≠ 92 ∧ c ≠ 10) = true ∧
        ValidString ((n ++ [34]).takeWhile (fun c => c ≠ 34)) = true
    · have hcond2 : (decide ((58 : Nat) ≠ 92 ∧ (58 : Nat) ≠ 10) &&
          ((n ++ [34]).takeWhile (fun c => c ≠ 34)).all (fun c => c ≠ 92 ∧ c ≠ 10)) = true ∧
          ValidString ((n ++ [34]).takeWhile (fun c => c ≠ 34)) = true := by
        simpa using hcond
      rw [if_pos hcond, if_pos hcond2]
      split_ifs <;> simp
    · have hcond2 : ¬ ((decide ((58 : Nat) ≠ 92 ∧ (58 : Nat) ≠ 10) &&
          ((n ++ [34]).takeWhile (fun c => c ≠ 34)).all (fun c => c ≠ 92 ∧ c ≠ 10)) = true ∧
          ValidString ((n ++ [34]).takeWhile (fun c => c ≠ 34)) = true) := by
        simpa using hcond
      rw [if_neg hcond, if_neg hcond2]
      cases unquoteLoop (n ++ [34]).length (n ++ [34]) [] with
      | none => simp
      | some r =>
        obtain ⟨out, rem⟩ := r
        by_cases hr : rem = [] <;> simp [hr]
  unfold unquoteArg
  rw [hUnq]
  cases Unquote n <;> simp

/-! ## Lemmas: the escapes of --body-str -/

theorem BodyTok.src_plain (c : Char) (h : (BodyTok.plain c).Printable) :
    (BodyTok.plain c).src = [c.toNat] := by
  obtain ⟨h1, h2, -, -⟩ := h
  simp only [BodyTok.src]
  rw [toBytes_cons_ascii c [] (by omega), toBytes_nil]

/-- The decoding loop over a sequence of pieces returns their bytes. -/
theorem unquoteLoop_bodyToks (ts : List BodyTok) (h : ∀ t ∈ ts, t.Printable) :
    ∀ (fuel : Nat) (rest : Bytes) (buf : Bytes), ts.length < fuel →
      unquoteLoop fuel (ts.flatMap BodyTok.src ++ 34 :: rest) buf =
        some (buf ++ ts.flatMap BodyTok.dec, rest) := by
  induction ts with
  | nil =>
    intro fuel rest buf hf
    obtain ⟨f, rfl⟩ : ∃ f, fuel = f + 1 := ⟨fuel - 1, by simp at hf; omega⟩
    simp [unquoteLoop_quote]
  | cons t ts ih =>
    intro fuel rest buf hf
    obtain ⟨f, rfl⟩ : ∃ f, fuel = f + 1 := ⟨fuel - 1, by simp at hf; omega⟩
    have ht := h t (List.mem_cons_self _ _)
    have hts : ∀ u ∈ ts, u.Printable := fun u hu => h u (List.mem_cons_of_mem _ hu)
    have hf2 : ts.length < f := by simpa using hf
    cases t with
    | plain c =>
      have hsrc := BodyTok.src_plain c ht
      obtain ⟨h1, h2, h3, h4⟩ := ht
      rw [List.flatMap_cons, List.flatMap_cons, hsrc]
      simp only [BodyTok.dec, List.singleton_append, List.cons_append, List.nil_append]
      rw [unquoteLoop_plain _ _ _ _ (by omega) h3 h4 (by omega), ih hts f rest _ hf2]
      simp
    | escR =>
      simp only [List.flatMap_cons, BodyTok.src, BodyTok.dec, List.cons_append,
        List.nil_append]
      rw [unquoteLoop_escR, ih hts f rest _ hf2]
      simp
    | escN =>
      simp only [List.flatMap_cons, BodyTok.src, BodyTok.dec, List.cons_append,
        List.nil_append]
      rw [unquoteLoop_escN, ih hts f rest _ hf2]
      simp

theorem length_le_flatMap_src (ts : List BodyTok) (h : ∀ t ∈ ts, t.Printable) :
    ts.length ≤ (ts.flatMap BodyTok.src).length := by
  induction ts with
  | nil => simp
  | cons t ts ih =>
    rw [List.flatMap_cons, List.length_append, List.length_cons]
    have hts := ih (fun u hu => h u (List.mem_cons_of_mem _ hu))
    have : 1 ≤ (BodyTok.src t).length := by
      cases t with
      | plain c => rw [BodyTok.src_plain c (h _ (List.mem_cons_self _ _))]; simp
      | escR => simp [BodyTok.src]
      | escN => simp [BodyTok.src]
    omega

/-- The bytes typed for printable pieces hold no quote and are ASCII. -/
theorem flatMap_src_bytes (ts : List BodyTok) (h : ∀ t ∈ ts, t.Printable) :
    ∀ b ∈ ts.flatMap BodyTok.src, b ≠ 34 ∧ b < 0x80 := by
  induction ts with
  | nil => simp
  | cons t ts ih =>
    intro b hb
    rw [List.flatMap_cons, List.mem_append] at hb
    rcases hb with hb | hb
    · cases t with
      | plain c =>
        have ht := h _ (List.mem_cons_self _ _)
        rw [BodyTok.src_plain c ht, List.mem_singleton] at hb
        obtain ⟨h1, h2, h3, h4⟩ := ht
        subst hb
        exact ⟨h4, by omega⟩
      | escR =>
        simp only [BodyTok.src, List.mem_cons, List.mem_singleton, List.not_mem_nil,
          or_false] at hb
        rcases hb with hb | hb <;> subst hb <;> omega
      | escN =>
        simp only [BodyTok.src, List.mem_cons, List.mem_singleton, List.not_mem_nil,
          or_false] at hb
        rcases hb with hb | hb <;> subst hb <;> omega
    · exact ih (fun u hu => h u (List.mem_cons_of_mem _ hu)) b hb

/-- Without a backslash among the bytes typed there is no escape: the pieces
stand for the bytes typed. -/
theorem flatMap_src_eq_dec (ts : List BodyTok) (h : ∀ t ∈ ts, t.Printable)
    (h92 : ∀ b ∈ ts.flatMap BodyTok.src, b ≠ 92) :
    ts.flatMap BodyTok.src = ts.flatMap BodyTok.dec := by
  induction ts with
  | nil => rfl
  | cons t ts ih =>
    have hts := ih (fun u hu => h u (List.mem_cons_of_mem _ hu))
      (fun b hb => h92 b (by rw [List.flatMap_cons]; exact List.mem_append_right _ hb))
    rw [List.flatMap_cons, List.flatMap_cons, hts]
    cases t with
    | plain c => rw [BodyTok.src_plain c (h _ (List.mem_cons_self _ _))]; rfl
    | escR =>
      exact absurd rfl (h92 92 (by simp [List.flatMap_cons, BodyTok.src]))
    | escN =>
      exact absurd rfl (h92 92 (by simp [List.flatMap_cons, BodyTok.src]))

/-- Source function `unquoteArg` on a body string made of printable pieces:
the bytes of the pieces. -/
theorem unquoteArg_bodyToks (ts : List BodyTok) (h : ∀ t ∈ ts, t.Printable) :
    unquoteArg (ts.flatMap BodyTok.src) = ts.flatMap BodyTok.dec := by
  have hlen := length_le_flatMap_src ts h
  have hbytes := flatMap_src_bytes ts h
  have h34 : 34 ∉ ts.flatMap BodyTok.src := fun hm => (hbytes 34 hm).1 rfl
  unfold unquoteArg
  rw [Unquote_of_no_quote _ h34]
  split_ifs with hcond
  · have h92 : ∀ b ∈ ts.flatMap BodyTok.src, b ≠ 92 := by
      intro b hb
      have := List.all_eq_true.mp hcond.1 b hb
      simp only [decide_eq_true_eq] at this
      exact this.1
    exact flatMap_src_eq_dec ts h h92
  · rw [unquoteLoop_bodyToks ts h _ [] [] (by omega)]
    simp

/-! ## Lemmas: SplitN -/

/-- Go call SplitN(s, sep, 2) on a string with the separator: the text before
its first occurrence and everything after it. -/
theorem SplitN_two_cut {α : Type} [DecidableEq α] (a b : List α) (sep : α) (h : sep ∉ a) :
    SplitN (a ++ sep :: b) sep 2 = [a, b] := by
  simp only [SplitN]
  rw [dropWhile_ne_cut a b sep h, takeWhile_ne_cut a b sep h]

/-- Go call SplitN(s, sep, 2) on a string without the separator: the string
alone. -/
theorem SplitN_two_whole {α : Type} [DecidableEq α] (s : List α) (sep : α) (h : sep ∉ s) :
    SplitN s sep 2 = [s] := by
  simp only [SplitN]
  rw [dropWhile_ne_of_not_mem s sep h]

theorem ContainsRune_iff (s : Bytes) (r : Nat) : ContainsRune s r = true ↔ r ∈ s := by
  simp [ContainsRune, List.any_eq_true]

/-! ## Lemmas: one header argument -/

/-- An argument without a colon is refused. -/
theorem headerOfArg_no_colon (h : Bytes) (hc : 58 ∉ h) :
    headerOfArg h = .error (CmdError.invalidHeader h) := by
  simp [headerOfArg, SplitN_two_whole h 58 hc]

/-- An ordinary argument: cut at its first colon. -/
theorem headerOfArg_plain (n v : Bytes) (hn : n ≠ []) (hc : 58 ∉ n) :
    headerOfArg (n ++ 58 :: v) = .ok (Header.mk (unquoteArg n) (unquoteArg v)) := by
  simp [headerOfArg, SplitN_two_cut n v 58 hc, hn]

/-- A pseudo-header argument: cut at its second colon. -/
theorem headerOfArg_pseudo (n v : Bytes) (hc : 58 ∉ n) :
    headerOfArg (58 :: (n ++ 58 :: v)) =
      .ok (Header.mk (unquoteArg (58 :: n)) (unquoteArg v)) := by
  have h1 : SplitN (58 :: (n ++ 58 :: v)) 58 2 = [[], n ++ 58 :: v] :=
    SplitN_two_cut [] (n ++ 58 :: v) 58 (by simp)
  have h2 : ContainsRune (n ++ 58 :: v) 58 = true := by
    rw [ContainsRune_iff]; simp
  simp [headerOfArg, h1, h2, SplitN_two_cut n v 58 hc]

/-- A colon followed by text without a colon: the empty name. -/
theorem headerOfArg_empty_name (v : Bytes) (hc : 58 ∉ v) :
    headerOfArg (58 :: v) = .ok (Header.mk [] (unquoteArg v)) := by
  have h1 : SplitN (58 :: v) 58 2 = [[], v] := SplitN_two_cut [] v 58 (by simp)
  have h2 : ¬ ContainsRune v 58 = true := by
    rw [ContainsRune_iff]; exact hc
  have h3 : unquoteArg [] = [] := by decide
  simp [headerOfArg, h1, h2, h3]

/-- Every argument with a colon gives a header: the two sides of one of its
colons, each passed through `unquoteArg`. -/
theorem headerOfArg_of_colon (h : Bytes) (hc : 58 ∈ h) :
    ∃ a b, h = a ++ 58 :: b ∧
      headerOfArg h = .ok (Header.mk (unquoteArg a) (unquoteArg b)) := by
  obtain ⟨n, v, rfl, hn⟩ := exists_first_cut h 58 hc
  by_cases hne : n = []
  · subst hne
    by_cases hv : 58 ∈ v
    · obtain ⟨n2, v2, rfl, hn2⟩ := exists_first_cut v 58 hv
      exact ⟨58 :: n2, v2, by simp, headerOfArg_pseudo n2 v2 hn2⟩
    · exact ⟨[], v, by simp, by simpa using headerOfArg_empty_name v hv⟩
  · exact ⟨n, v, rfl, headerOfArg_plain n v hne hn⟩

/-! ## Lemmas: the header loop -/

/-- The loop over arguments that all give a header appends these headers, one
for each argument, in the order of the arguments. -/
theorem headerLoop_ok (hs : List Bytes) :
    ∀ (hds : List Header) (acc : List Header),
      List.Forall₂ (fun h hd => headerOfArg h = .ok hd) hs hds →
      headerLoop hs acc = .ok (acc ++ hds) := by
  induction hs with
  | nil =>
    intro hds acc hf
    cases hf
    simp [headerLoop]
  | cons h hs ih =>
    intro hds acc hf
    cases hf with
    | cons h1 h2 =>
      simp [headerLoop, h1, ih _ _ h2]

/-- Arguments that all hold a colon all give a header. -/
theorem exists_headers (hs : List Bytes) (hc : ∀ h ∈ hs, 58 ∈ h) :
    ∃ hds, List.Forall₂ (fun h hd => headerOfArg h = .ok hd) hs hds := by
  induction hs with
  | nil => exact ⟨[], List.Forall₂.nil⟩
  | cons h hs ih =>
    obtain ⟨hds, hf⟩ := ih (fun x hx => hc x (List.mem_cons_of_mem _ hx))
    obtain ⟨a, b, -, hab⟩ := headerOfArg_of_colon h (hc h (List.mem_cons_self _ _))
    exact ⟨_ :: hds, List.Forall₂.cons hab hf⟩

/-- The loop leaves at the first argument without a colon. -/
theorem headerLoop_error (pre : List Bytes) (bad : Bytes) (post : List Bytes)
    (hpre : ∀ h ∈ pre, 58 ∈ h) (hbad : 58 ∉ bad) :
    ∀ acc, headerLoop (pre ++ bad :: post) acc = .error (CmdError.invalidHeader bad) := by
  induction pre with
  | nil =>
    intro acc
    simp [headerLoop, headerOfArg_no_colon bad hbad]
  | cons h pre ih =>
    intro acc
    obtain ⟨a, b, -, hab⟩ := headerOfArg_of_colon h (hpre h (List.mem_cons_self _ _))
    simp [headerLoop, hab, ih (fun x hx => hpre x (List.mem_cons_of_mem _ hx))]

/-! ## Lemmas: Split -/

theorem count_takeWhile_ne {α : Type} [DecidableEq α] (s : List α) (sep : α) :
    (s.takeWhile (fun c => c ≠ sep)).count sep = 0 := by
  rw [List.count_eq_zero]
  intro hm
  have := List.mem_takeWhile_imp hm
  simp at this

/-- A list whose scan for the separator stops somewhere, cut there. -/
theorem cut_of_dropWhile {α : Type} [DecidableEq α] (s : List α) (sep x : α) (rest : List α)
    (h : s.dropWhile (fun c => c ≠ sep) = x :: rest) :
    s = s.takeWhile (fun c => c ≠ sep) ++ sep :: rest ∧
      sep ∉ s.takeWhile (fun c => c ≠ sep) := by
  have hne : s.dropWhile (fun c => c ≠ sep) ≠ [] := by rw [h]; simp
  have hx := List.head_dropWhile_not (fun c => decide (c ≠ sep)) s hne
  simp only [h, List.head_cons] at hx
  have hxs : x = sep := by simpa using hx
  subst hxs
  refine ⟨?_, ?_⟩
  · rw [← h, List.takeWhile_append_dropWhile]
  · intro hm
    have := List.mem_takeWhile_imp hm
    simp at this

/-- With enough pieces allowed, SplitN cuts at every separator: one piece
more than there are separators, no piece holds the separator, and the pieces
joined by the separator are the input. -/
theorem SplitN_all {α : Type} [DecidableEq α] (sep : α) :
    ∀ (n : Nat) (s : List α), s.count sep + 1 ≤ n →
      (SplitN s sep n).length = s.count sep + 1 ∧
      (∀ p ∈ SplitN s sep n, sep ∉ p) ∧
      List.intercalate [sep] (SplitN s sep n) = s := by
  intro n
  induction n using Nat.strong_induction_on with
  | _ n ih =>
    intro s hn
    match n, hn with
    | 1, hn =>
      have hc : s.count sep = 0 := by omega
      refine ⟨by simp [SplitN, hc], ?_, by simp [SplitN, List.intercalate]⟩
      intro p hp
      simp only [SplitN, List.mem_singleton] at hp
      subst hp
      exact List.count_eq_zero.mp hc
    | m + 2, hn =>
      simp only [SplitN]
      cases hd : s.dropWhile (fun c => c ≠ sep) with
      | nil =>
        have hmem : sep ∉ s := by
          intro hm
          have := List.dropWhile_eq_nil_iff.mp hd sep hm
          simp at this
        have hc : s.count sep = 0 := List.count_eq_zero.mpr hmem
        refine ⟨by simp [hc], ?_, by simp [List.intercalate]⟩
        intro p hp
        simp only [List.mem_singleton] at hp
        subst hp
        exact hmem
      | cons x rest =>
        dsimp only
        obtain ⟨hs, hnot⟩ := cut_of_dropWhile s sep x rest hd
        have hcount : s.count sep = rest.count sep + 1 := by
          conv_lhs => rw [hs]
          rw [List.count_append, List.count_cons_self, List.count_eq_zero.mpr hnot]
          omega
        obtain ⟨h1, h2, h3⟩ := ih (m + 1) (by omega) rest (by omega)
        refine ⟨by simp [h1, hcount], ?_, ?_⟩
        · intro p hp
          rcases List.mem_cons.mp hp with e | hp
          · subst e; exact hnot
          · exact h2 p hp
        · have hne : SplitN rest sep (m + 1) ≠ [] := by
            intro e
            rw [e] at h1
            simp at h1
          obtain ⟨y, ys, hy⟩ := List.exists_cons_of_ne_nil hne
          rw [hy] at h3 ⊢
          conv_rhs => rw [hs, ← h3]
          simp [List.intercalate, List.intersperse]

/-- Go functions strings.Split and bytes.Split: one piece more than there are
separators, no piece holds the separator, and the pieces joined by the
separator are the input. -/
theorem Split_spec {α : Type} [DecidableEq α] (s : List α) (sep : α) :
    (Split s sep).length = s.count sep + 1 ∧
    (∀ p ∈ Split s sep, sep ∉ p) ∧
    List.intercalate [sep] (Split s sep) = s :=
  SplitN_all sep (s.count sep + 1) s (le_refl _)

/-! ## Lemmas: doAndPrintRequest -/

theorem foldl_append_singleton {α β : Type} (f : α → β) (xs : List α) :
    ∀ out : List β, xs.foldl (fun o h => o ++ [f h]) out = out ++ xs.map f := by
  induction xs with
  | nil => intro out; simp
  | cons x xs ih => intro out; simp [ih]

/-- The printing loop writes a prefix of the lines, each followed by a
newline. -/
theorem printBody_eq (bodyLines : Int) (lines : List Bytes) :
    ∀ (i : Nat) (out : List Bytes),
      printBody lines i bodyLines out =
        out ++ (lines.take (if bodyLines < 0 then lines.length else bodyLines.toNat - i)).map
          (fun l => l ++ [10]) := by
  induction lines with
  | nil => intro i out; simp [printBody]
  | cons l ls ih =>
    intro i out
    simp only [printBody]
    by_cases hneg : bodyLines < 0
    · simp [hneg, ih]
    · by_cases hi : (i : Int) < bodyLines
      · have h1 : bodyLines.toNat - i = (bodyLines.toNat - (i + 1)) + 1 := by omega
        simp only [hneg, hi, or_true, if_true, if_false, ih, h1, List.take_succ_cons,
          List.map_cons, List.append_assoc, List.singleton_append]
      · have h0 : bodyLines.toNat - i = 0 := by omega
        simp [hneg, hi, h0]

theorem printBody_zero (bodyLines : Int) (lines : List Bytes) (out : List Bytes) :
    printBody lines 0 bodyLines out =
      out ++ (lines.take (printedLines bodyLines lines.length)).map (fun l => l ++ [10]) := by
  rw [printBody_eq]
  unfold printedLines
  by_cases hneg : bodyLines < 0
  · simp [hneg]
  · simp only [hneg, if_false, Nat.sub_zero]
    by_cases hle : bodyLines.toNat ≤ lines.length
    · rw [min_eq_left hle]
    · rw [min_eq_right (by omega), List.take_length, List.take_of_length_le (by omega)]

/-! ## Lemmas: TrimSpace and the targets loop -/

theorem rdropWhile_append_rtakeWhile {α : Type} (p : α → Bool) (l : List α) :
    l.rdropWhile p ++ l.rtakeWhile p = l := by
  unfold List.rdropWhile List.rtakeWhile
  rw [← List.reverse_append, List.takeWhile_append_dropWhile, List.reverse_reverse]

/-- Go function strings.TrimSpace: the result is the input without a run of
white space at its start and a run of white space at its end, and it neither
starts nor ends with white space. -/
theorem TrimSpace_spec (s : Text) :
    (∃ pre post, s = pre ++ TrimSpace s ++ post ∧
      (∀ c ∈ pre, IsSpace c = true) ∧ (∀ c ∈ post, IsSpace c = true)) ∧
    (∀ c, (TrimSpace s).head? = some c → IsSpace c = false) ∧
    (∀ c, (TrimSpace s).getLast? = some c → IsSpace c = false) := by
  refine ⟨⟨s.takeWhile IsSpace, (s.dropWhile IsSpace).rtakeWhile IsSpace, ?_, ?_, ?_⟩, ?_, ?_⟩
  · unfold TrimSpace
    rw [List.append_assoc, rdropWhile_append_rtakeWhile, List.takeWhile_append_dropWhile]
  · intro c hc
    exact List.mem_takeWhile_imp hc
  · intro c hc
    exact List.mem_rtakeWhile_imp hc
  · intro c hc
    have hne : TrimSpace s ≠ [] := by
      intro e; rw [e] at hc; simp at hc
    have hpre : TrimSpace s <+: s.dropWhile IsSpace := List.rdropWhile_prefix _ _
    have hdne : s.dropWhile IsSpace ≠ [] := by
      intro e
      rw [e] at hpre
      exact hne (List.prefix_nil.mp hpre)
    have hhead := hpre.head hne
    have hnot := List.head_dropWhile_not IsSpace s hdne
    have hc2 : (TrimSpace s).head hne = c := by
      have := List.head?_eq_head hne
      rw [this] at hc
      exact Option.some.inj hc
    rw [← hc2, hhead]
    exact hnot
  · intro c hc
    have hne : TrimSpace s ≠ [] := by
      intro e; rw [e] at hc; simp at hc
    have hlast := List.rdropWhile_last_not IsSpace (s.dropWhile IsSpace) hne
    have hc2 : (TrimSpace s).getLast hne = c := by
      have := List.getLast?_eq_getLast _ hne
      rw [this] at hc
      exact Option.some.inj hc
    rw [← hc2]
    simpa [TrimSpace] using hlast

/-- The loop over the lines of the targets file appends the trimmed lines that
are not empty, in the order of the lines. -/
theorem targetsLoop_eq (lines : List Text) :
    ∀ targets : List Text,
      targetsLoop lines targets =
        targets ++ (lines.map TrimSpace).filter (fun l => l ≠ []) := by
  induction lines with
  | nil => intro targets; simp [targetsLoop]
  | cons l ls ih =>
    intro targets
    by_cases he : TrimSpace l = []
    · simp [targetsLoop, he, ih]
    · simp [targetsLoop, he, ih]

/-! ## Lemmas: the request command -/

theorem doAndPrintRequest_requests (D : RequestParams → Response) (p : RequestParams)
    (bodyLines : Int) (w : World) :
    (doAndPrintRequest D p bodyLines w).requests = w.requests ++ [p] := rfl

theorem doAndPrintRequest_stdout (D : RequestParams → Response) (p : RequestParams)
    (bodyLines : Int) (w : World) :
    (doAndPrintRequest D p bodyLines w).stdout =
      w.stdout
        ++ (match (D p).err with
            | some e => [toBytes "Error is ".toList ++ e ++ [10]]
            | none => [])
        ++ (D p).headers.map (fun h => h.Name ++ toBytes ": ".toList ++ h.Value ++ [10])
        ++ [[10]]
        ++ ((Split (D p).body 10).take
              (printedLines bodyLines (Split (D p).body 10).length)).map
            (fun l => l ++ [10]) := by
  unfold doAndPrintRequest
  simp only [printBody_zero, foldl_append_singleton]
  cases (D p).err <;> simp

/-- The request command with no body file, no flag conflict and header
arguments that all give a header: one call of `doAndPrintRequest`. -/
theorem requestCmd_sends (env : RequestEnv) (fl : Flags) (target : Bytes) (hs : List Bytes)
    (hds : List Header) (w : World)
    (hFile : fl.bodyFile = [])
    (hOk : ¬ (fl.noAutoHeaders = true ∧ fl.requestMethod ≠ toBytes "GET".toList))
    (hf : List.Forall₂ (fun h hd => headerOfArg h = .ok hd) hs hds) :
    requestCmd env fl (target :: hs) w =
      (none, doAndPrintRequest env.DoRequest
        { Target := target
          Method := unquoteArg fl.requestMethod
          ConnectAddr := fl.connectAddr
          Headers := hds
          NoAutoHeaders := fl.noAutoHeaders
          Body := unquoteArg fl.bodyStr
          Timeout := fl.timeout } fl.bodyLines
        { w with bodyToSend := unquoteArg fl.bodyStr }) := by
  have hloop := headerLoop_ok hs hds [] hf
  rw [List.nil_append] at hloop
  simp only [requestCmd, requestRunE]
  rw [if_neg hOk, if_neg (by simp [hFile]), hloop]

/-- The header built for one argument sits at the position of the argument. -/
theorem requestCmd_header_at (env : RequestEnv) (fl : Flags) (target : Bytes)
    (pre post : List Bytes) (h : Bytes) (hd : Header) (w : World)
    (hFile : fl.bodyFile = [])
    (hOk : ¬ (fl.noAutoHeaders = true ∧ fl.requestMethod ≠ toBytes "GET".toList))
    (hpre : ∀ x ∈ pre, 58 ∈ x) (hpost : ∀ x ∈ post, 58 ∈ x)
    (hh : headerOfArg h = .ok hd) :
    ∃ p, (requestCmd env fl (target :: (pre ++ h :: post)) w).2.requests = w.requests ++ [p] ∧
      p.Headers[pre.length]? = some hd := by
  obtain ⟨hdsPre, hfPre⟩ := exists_headers pre hpre
  obtain ⟨hdsPost, hfPost⟩ := exists_headers post hpost
  have hf : List.Forall₂ (fun h hd => headerOfArg h = .ok hd) (pre ++ h :: post)
      (hdsPre ++ hd :: hdsPost) :=
    List.rel_append hfPre (List.Forall₂.cons hh hfPost)
  rw [requestCmd_sends env fl target _ _ w hFile hOk hf]
  refine ⟨_, doAndPrintRequest_requests _ _ _ _, ?_⟩
  have hlen := hfPre.length_eq
  show (hdsPre ++ hd :: hdsPost)[pre.length]? = some hd
  rw [hlen, List.getElem?_append_right (le_refl _)]
  simp

/-- The request command with a body file that can be read, and no
--body-str: the file is read, its contents are stored in `bodyToSend`, and the
command returns nil there and then. -/
theorem requestCmd_body_file (env : RequestEnv) (fl : Flags) (args : List Bytes) (w : World)
    (data : Bytes) (hArgs : args ≠ [])
    (hOk : ¬ (fl.noAutoHeaders = true ∧ fl.requestMethod ≠ toBytes "GET".toList))
    (hFile : fl.bodyFile ≠ []) (hStr : fl.bodyStr = [])
    (hRead : env.ReadFile fl.bodyFile = .ok data) :
    requestCmd env fl args w =
      (none, { w with bodyToSend := data, filesRead := w.filesRead ++ [fl.bodyFile] }) := by
  cases args with
  | nil => exact absurd rfl hArgs
  | cons target hs =>
    simp only [requestCmd, requestRunE]
    rw [if_neg hOk, if_pos hFile, if_neg (by simp [hStr]), hRead]

/-! ## The claims -/

/-- C1: when the request command reaches the exchange (no body file, no
conflict between --method and --no-auto-headers, every header argument holds a
colon), `DoRequest` is called once, and the `Headers` of its `RequestParams`
hold exactly one header for each header argument, at the position of the
argument: the header at position `i` is made of the two sides of a colon (58)
of argument `i`, each passed through `unquoteArg`, and for an argument that is
valid UTF-8 without backslash, double quote and newline these are the bytes of
the two sides, unchanged (nothing is reordered, dropped, merged or
case-normalized). The arguments are arbitrary byte strings. -/
theorem request_headers_one_per_argument (env : RequestEnv) (fl : Flags) (target : Bytes)
    (hs : List Bytes) (w : World)
    (hFile : fl.bodyFile = [])
    (hOk : ¬ (fl.noAutoHeaders = true ∧ fl.requestMethod ≠ toBytes "GET".toList))
    (hColon : ∀ h ∈ hs, 58 ∈ h) :
    ∃ p, (requestCmd env fl (target :: hs) w).2.requests = w.requests ++ [p] ∧
      p.Headers.length = hs.length ∧
      ∀ (i : Nat) (hi : i < hs.length), ∃ a b, hs[i] = a ++ 58 :: b ∧
        p.Headers[i]? = some (Header.mk (unquoteArg a) (unquoteArg b)) ∧
        (EscapeFree hs[i] → ValidString hs[i] = true →
          p.Headers[i]? = some (Header.mk a b)) := by
  obtain ⟨hds, hf⟩ := exists_headers hs hColon
  rw [requestCmd_sends env fl target hs hds w hFile hOk hf]
  refine ⟨_, doAndPrintRequest_requests _ _ _ _, hf.length_eq.symm, ?_⟩
  intro i hi
  have hi2 : i < hds.length := hf.length_eq ▸ hi
  obtain ⟨a, b, hab, hok⟩ := headerOfArg_of_colon hs[i] (hColon _ (List.getElem_mem hi))
  have hrel := (List.forall₂_iff_get.mp hf).2 i hi hi2
  simp only [List.get_eq_getElem] at hrel
  rw [hok] at hrel
  have hEq : hds[i] = Header.mk (unquoteArg a) (unquoteArg b) := by
    injection hrel with hrel
    exact hrel.symm
  have hget : hds[i]? = some (Header.mk (unquoteArg a) (unquoteArg b)) := by
    rw [List.getElem?_eq_getElem hi2, hEq]
  refine ⟨a, b, hab, hget, ?_⟩
  intro hfree hvalid
  have ha : EscapeFree a := fun c hc => hfree c (by rw [hab]; simp [hc])
  have hb : EscapeFree b := fun c hc => hfree c (by rw [hab]; simp [hc])
  rw [hab] at hvalid
  obtain ⟨hva, hvb⟩ := ValidString_of_append_ascii 58 a b (by omega) hvalid
  show hds[i]? = _
  rw [hget, unquoteArg_escapeFree a ha hva, unquoteArg_escapeFree b hb hvb]

/-- C1 at a concrete input: three header arguments, two with the same name
in different case, give three headers in the order of the arguments. -/
theorem request_headers_one_per_argument_witness :
    ∃ p, (requestCmd exampleEnv defaultFlags
        [exampleUrl, toBytes "X-A:1".toList, toBytes "x-a:2".toList, toBytes "Content-Length: 0".toList]
        emptyWorld).2.requests = [p] ∧
      p.Headers =
        [Header.mk (toBytes "X-A".toList) (toBytes "1".toList),
         Header.mk (toBytes "x-a".toList) (toBytes "2".toList),
         Header.mk (toBytes "Content-Length".toList) (toBytes " 0".toList)] := by
  obtain ⟨p, hp, hlen, -⟩ := request_headers_one_per_argument exampleEnv defaultFlags
    exampleUrl [toBytes "X-A:1".toList, toBytes "x-a:2".toList, toBytes "Content-Length: 0".toList] emptyWorld
    rfl (by decide) (by decide)
  refine ⟨p, hp, ?_⟩
  have hcalc : (requestCmd exampleEnv defaultFlags
      [exampleUrl, toBytes "X-A:1".toList, toBytes "x-a:2".toList, toBytes "Content-Length: 0".toList]
      emptyWorld).2.requests.map RequestParams.Headers =
      [[Header.mk (toBytes "X-A".toList) (toBytes "1".toList),
        Header.mk (toBytes "x-a".toList) (toBytes "2".toList),
        Header.mk (toBytes "Content-Length".toList) (toBytes " 0".toList)]] := by
    decide
  rw [hp] at hcalc
  simpa [emptyWorld] using hcalc

/-- C2, as amended: a header argument `n ++ ":" ++ v` (the colon is byte 58)
with `n` not empty and without a colon gives the header
(unquoteArg n, unquoteArg v), at the position of the argument: the cut is at
the first colon, later colons stay in the value, nothing is trimmed; when `n`
and `v` are valid UTF-8 and hold no backslash, double quote or newline the
header is (n, v) byte for byte. -/
theorem request_header_cut_at_first_colon (env : RequestEnv) (fl : Flags) (target : Bytes)
    (pre post : List Bytes) (n v : Bytes) (w : World)
    (hFile : fl.bodyFile = [])
    (hOk : ¬ (fl.noAutoHeaders = true ∧ fl.requestMethod ≠ toBytes "GET".toList))
    (hpre : ∀ x ∈ pre, 58 ∈ x) (hpost : ∀ x ∈ post, 58 ∈ x)
    (hn : n ≠ []) (hnc : 58 ∉ n) :
    ∃ p, (requestCmd env fl (target :: (pre ++ (n ++ 58 :: v) :: post)) w).2.requests =
        w.requests ++ [p] ∧
      p.Headers[pre.length]? = some (Header.mk (unquoteArg n) (unquoteArg v)) ∧
      (EscapeFree n → EscapeFree v → ValidString n = true → ValidString v = true →
        p.Headers[pre.length]? = some (Header.mk n v)) := by
  obtain ⟨p, hp, hget⟩ := requestCmd_header_at env fl target pre post _ _ w hFile hOk hpre hpost
    (headerOfArg_plain n v hn hnc)
  refine ⟨p, hp, hget, ?_⟩
  intro hfn hfv hvn hvv
  rw [hget, unquoteArg_escapeFree n hfn hvn, unquoteArg_escapeFree v hfv hvv]

/-- C2 at the example of the command: the argument
"transfer-encoding : chunked" gives the name "transfer-encoding " and the
value " chunked", the blanks around the colon kept. -/
theorem request_header_cut_at_first_colon_witness :
    ∃ p, (requestCmd exampleEnv defaultFlags
        [exampleUrl, toBytes "transfer-encoding : chunked".toList] emptyWorld).2.requests
        = [p] ∧
      p.Headers[0]? = some (Header.mk (toBytes "transfer-encoding ".toList)
        (toBytes " chunked".toList)) := by
  obtain ⟨p, hp, -, hget⟩ := request_header_cut_at_first_colon exampleEnv defaultFlags
    exampleUrl [] [] (toBytes "transfer-encoding ".toList) (toBytes " chunked".toList)
    emptyWorld rfl (by decide) (by decide) (by decide) (by decide) (by decide)
  exact ⟨p, hp, hget (by decide) (by decide) (by decide) (by decide)⟩

/-- C2 as stated fails on an argument that is not valid UTF-8: for the header
argument of the four bytes 6E E9 3A 76 (`n` is 6E E9, `v` is 76, neither
holds a backslash, double quote, newline or colon) strconv.Unquote runs its
decoding loop and the name sent is 6E EF BF BD, the byte E9 rewritten as
U+FFFD, not `n`. -/
theorem request_header_invalid_utf8_rewritten :
    ([110, 233] : Bytes) ≠ [] ∧ 58 ∉ ([110, 233] : Bytes) ∧
    EscapeFree [110, 233] ∧ EscapeFree [118] ∧
    (requestCmd exampleEnv defaultFlags [exampleUrl, [110, 233] ++ 58 :: [118]]
        emptyWorld).2.requests.map RequestParams.Headers =
      [[Header.mk [110, 239, 191, 189] [118]]] ∧
    Header.mk [110, 239, 191, 189] [118] ≠ Header.mk [110, 233] [118] := by
  decide

/-- C10: a pseudo-header argument `":" ++ n ++ ":" ++ v` (the colon is byte
58) with `n` without a colon gives the header (unquoteArg (":" ++ n), unquoteArg v), at the position
of the argument: the cut is at the second colon, the name keeps its leading
colon (its first byte is 58) and later colons stay in the value; an argument
`":" ++ u` with `u` without a colon gives the empty name and the value
unquoteArg u. -/
theorem request_pseudo_header_cut_at_second_colon (env : RequestEnv) (fl : Flags)
    (target : Bytes) (pre post : List Bytes) (n v u : Bytes) (w : World)
    (hFile : fl.bodyFile = [])
    (hOk : ¬ (fl.noAutoHeaders = true ∧ fl.requestMethod ≠ toBytes "GET".toList))
    (hpre : ∀ x ∈ pre, 58 ∈ x) (hpost : ∀ x ∈ post, 58 ∈ x)
    (hnc : 58 ∉ n) (huc : 58 ∉ u) :
    (∃ p, (requestCmd env fl (target :: (pre ++ (58 :: (n ++ 58 :: v)) :: post)) w).2.requests
          = w.requests ++ [p] ∧
        p.Headers[pre.length]? = some (Header.mk (unquoteArg (58 :: n)) (unquoteArg v)) ∧
        unquoteArg (58 :: n) = 58 :: unquoteArg n) ∧
    (∃ p, (requestCmd env fl (target :: (pre ++ (58 :: u) :: post)) w).2.requests
          = w.requests ++ [p] ∧
        p.Headers[pre.length]? = some (Header.mk [] (unquoteArg u))) := by
  constructor
  · obtain ⟨p, hp, hget⟩ := requestCmd_header_at env fl target pre post _ _ w hFile hOk
      hpre hpost (headerOfArg_pseudo n v hnc)
    exact ⟨p, hp, hget, unquoteArg_colon_cons n⟩
  · exact requestCmd_header_at env fl target pre post _ _ w hFile hOk hpre hpost
      (headerOfArg_empty_name u huc)

/-- C10 at a concrete input: ":authority:example.com:8080" gives the name
":authority" and the value "example.com:8080"; ":x" gives the empty name and
the value "x". -/
theorem request_pseudo_header_cut_at_second_colon_witness :
    (∃ p, (requestCmd exampleEnv defaultFlags
          [exampleUrl, toBytes ":authority:example.com:8080".toList] emptyWorld).2.requests = [p] ∧
        p.Headers[0]? = some (Header.mk (toBytes ":authority".toList)
          (toBytes "example.com:8080".toList))) ∧
    (∃ p, (requestCmd exampleEnv defaultFlags
          [exampleUrl, toBytes ":x".toList] emptyWorld).2.requests = [p] ∧
        p.Headers[0]? = some (Header.mk [] (toBytes "x".toList))) := by
  obtain ⟨⟨p, hp, hget, -⟩, ⟨q, hq, hqget⟩⟩ :=
    request_pseudo_header_cut_at_second_colon exampleEnv defaultFlags exampleUrl [] []
      (toBytes "authority".toList) (toBytes "example.com:8080".toList) (toBytes "x".toList)
      emptyWorld
      rfl (by decide) (by decide) (by decide) (by decide) (by decide)
  have e1 : unquoteArg (58 :: toBytes "authority".toList) = toBytes ":authority".toList := by
    decide
  have e2 : unquoteArg (toBytes "example.com:8080".toList) =
      toBytes "example.com:8080".toList := by
    decide
  have e3 : unquoteArg (toBytes "x".toList) = toBytes "x".toList := by decide
  rw [e1, e2] at hget
  rw [e3] at hqget
  exact ⟨⟨p, hp, hget⟩, ⟨q, hq, hqget⟩⟩

/-- C9: with no body file and no flag conflict, when some header argument
holds no colon the command returns the "invalid header" error for the first
such argument and performs no exchange: `DoRequest` is not called, nothing is
read or printed, also when earlier header arguments were well formed. -/
theorem request_invalid_header_no_exchange (env : RequestEnv) (fl : Flags) (target : Bytes)
    (pre post : List Bytes) (bad : Bytes) (w : World)
    (hFile : fl.bodyFile = [])
    (hOk : ¬ (fl.noAutoHeaders = true ∧ fl.requestMethod ≠ toBytes "GET".toList))
    (hpre : ∀ x ∈ pre, 58 ∈ x) (hbad : 58 ∉ bad) :
    (requestCmd env fl (target :: (pre ++ bad :: post)) w).1 =
        some (CmdError.invalidHeader bad) ∧
      (requestCmd env fl (target :: (pre ++ bad :: post)) w).2.requests = w.requests ∧
      (requestCmd env fl (target :: (pre ++ bad :: post)) w).2.stdout = w.stdout ∧
      (requestCmd env fl (target :: (pre ++ bad :: post)) w).2.filesRead = w.filesRead := by
  have hloop := headerLoop_error pre bad post hpre hbad []
  have hrun : requestCmd env fl (target :: (pre ++ bad :: post)) w =
      (some (CmdError.invalidHeader bad), { w with bodyToSend := unquoteArg fl.bodyStr }) := by
    simp only [requestCmd, requestRunE]
    rw [if_neg hOk, if_neg (by simp [hFile]), hloop]
  rw [hrun]
  exact ⟨rfl, rfl, rfl, rfl⟩

/-- C9 at a concrete input: a well-formed header argument, then one without
a colon, then another well-formed one. -/
theorem request_invalid_header_no_exchange_witness :
    (requestCmd exampleEnv defaultFlags
        [exampleUrl, toBytes "a:b".toList, toBytes "oops".toList, toBytes "c:d".toList] emptyWorld).1 =
        some (CmdError.invalidHeader (toBytes "oops".toList)) ∧
      (requestCmd exampleEnv defaultFlags
        [exampleUrl, toBytes "a:b".toList, toBytes "oops".toList, toBytes "c:d".toList] emptyWorld).2.requests = [] := by
  obtain ⟨h1, h2, -, -⟩ := request_invalid_header_no_exchange exampleEnv defaultFlags
    exampleUrl [toBytes "a:b".toList] [toBytes "c:d".toList] (toBytes "oops".toList)
    emptyWorld
    rfl (by decide) (by decide) (by decide)
  exact ⟨h1, h2⟩

/-- C8: a --body-str made of printable ASCII characters other than backslash
and double quote and of the escapes backslash-r and backslash-n is decoded by
`unquoteArg` to the same bytes with a carriage return (13) for each
backslash-r and a line feed (10) for each backslash-n, and when no body file
is given (and the command reaches the exchange) these bytes are the `Body` of
the one request sent. -/
theorem request_body_str_escapes_decoded (env : RequestEnv) (fl : Flags) (target : Bytes)
    (hs : List Bytes) (w : World) (ts : List BodyTok)
    (hts : ∀ t ∈ ts, t.Printable)
    (hStr : fl.bodyStr = ts.flatMap BodyTok.src)
    (hFile : fl.bodyFile = [])
    (hOk : ¬ (fl.noAutoHeaders = true ∧ fl.requestMethod ≠ toBytes "GET".toList))
    (hColon : ∀ h ∈ hs, 58 ∈ h) :
    unquoteArg (ts.flatMap BodyTok.src) = ts.flatMap BodyTok.dec ∧
    ∃ p, (requestCmd env fl (target :: hs) w).2.requests = w.requests ++ [p] ∧
      p.Body = ts.flatMap BodyTok.dec := by
  have hdec := unquoteArg_bodyToks ts hts
  refine ⟨hdec, ?_⟩
  obtain ⟨hds, hf⟩ := exists_headers hs hColon
  rw [requestCmd_sends env fl target hs hds w hFile hOk hf]
  refine ⟨_, doAndPrintRequest_requests _ _ _ _, ?_⟩
  show unquoteArg fl.bodyStr = _
  rw [hStr, hdec]

/-- C8 at a concrete input: the body string `a=1\r\n\r\nb c` (with the two
escapes typed as backslash and letter) is sent as the bytes of "a=1", CR, LF,
CR, LF and "b c". -/
theorem request_body_str_escapes_decoded_witness :
    ∃ p, (requestCmd exampleEnv { defaultFlags with bodyStr := toBytes "a=1\\r\\n\\r\\nb c".toList }
        [exampleUrl] emptyWorld).2.requests = [p] ∧
      p.Body = [97, 61, 49, 13, 10, 13, 10, 98, 32, 99] := by
  obtain ⟨-, p, hp, hbody⟩ := request_body_str_escapes_decoded exampleEnv
    { defaultFlags with bodyStr := toBytes "a=1\\r\\n\\r\\nb c".toList } exampleUrl [] emptyWorld
    [.plain 'a', .plain '=', .plain '1', .escR, .escN, .escR, .escN,
      .plain 'b', .plain ' ', .plain 'c']
    (by decide) (by decide) rfl (by decide) (by decide)
  exact ⟨p, hp, hbody⟩

/-- C3, what the code does at the failing input `request --body-file body.txt
https://example.com/` with a readable file: the file is read and stored in
`bodyToSend`, the command returns nil, and `DoRequest` is never called (no
request, no output), where the claim has one exchange whose body is the
contents of the file. -/
theorem request_body_file_sends_no_request :
    requestCmd exampleEnv { defaultFlags with bodyFile := toBytes "body.txt".toList }
        [exampleUrl] emptyWorld =
      (none, { bodyToSend := [104, 105, 10], filesRead := [toBytes "body.txt".toList],
               requests := [], detectCalls := [], stdout := [] }) :=
  requestCmd_body_file exampleEnv { defaultFlags with bodyFile := toBytes "body.txt".toList }
    [exampleUrl] emptyWorld [104, 105, 10] (by decide) (by decide) (by decide) rfl rfl

/-- C4: when both body sources are given (--body-file and --body-str both
non-empty) the command returns an error and leaves the world as it was: the
body file is not read, `DoRequest` is not called and nothing is printed,
whatever the arguments are; with at least one argument and no conflict between
--method and --no-auto-headers the error is "both --body and --body-str
specified". -/
theorem request_both_body_sources_rejected (env : RequestEnv) (fl : Flags)
    (args : List Bytes) (w : World)
    (hFile : fl.bodyFile ≠ []) (hStr : fl.bodyStr ≠ []) :
    (requestCmd env fl args w).1 ≠ none ∧
      (requestCmd env fl args w).2 = w ∧
      (args ≠ [] → ¬ (fl.noAutoHeaders = true ∧ fl.requestMethod ≠ toBytes "GET".toList) →
        (requestCmd env fl args w).1 = some CmdError.bothBodies) := by
  cases args with
  | nil => simp [requestCmd]
  | cons target hs =>
    simp only [requestCmd, requestRunE]
    by_cases hOk : fl.noAutoHeaders = true ∧ fl.requestMethod ≠ toBytes "GET".toList
    · rw [if_pos hOk]
      exact ⟨by simp, rfl, fun _ h => absurd hOk h⟩
    · rw [if_neg hOk, if_pos hFile, if_pos hStr]
      exact ⟨by simp, rfl, fun _ _ => rfl⟩

/-- C4 at a concrete input: both --body-file and --body-str set. -/
theorem request_both_body_sources_rejected_witness :
    (requestCmd exampleEnv
        { defaultFlags with bodyFile := toBytes "body.txt".toList, bodyStr := toBytes "x=1".toList }
        [exampleUrl, toBytes "a:b".toList] emptyWorld).1 = some CmdError.bothBodies ∧
      (requestCmd exampleEnv
        { defaultFlags with bodyFile := toBytes "body.txt".toList, bodyStr := toBytes "x=1".toList }
        [exampleUrl, toBytes "a:b".toList] emptyWorld).2 = emptyWorld := by
  obtain ⟨-, h2, h3⟩ := request_both_body_sources_rejected exampleEnv
    { defaultFlags with bodyFile := toBytes "body.txt".toList, bodyStr := toBytes "x=1".toList }
    [exampleUrl, toBytes "a:b".toList] emptyWorld (by decide) (by decide)
  exact ⟨h3 (by decide) (by decide), h2⟩

/-- C5: with a targets file that can be read, the detect command calls
`detectMultipleTargets` once, with the positional targets in order followed by
the lines of the file (the pieces between its newlines), each with the white
space at its two ends removed, the empty ones left out, the others in the
order of the file; so every target that came from the file is not empty and
neither starts nor ends with white space. -/
theorem detect_targets_from_file (env : DetectEnv) (fl : Flags) (args : List Text)
    (w : World) (data : Text)
    (hFile : fl.targetsFile ≠ [])
    (hRead : env.ReadFile fl.targetsFile = .ok data) :
    ∃ c, (detectRunE env fl args w).2.detectCalls = w.detectCalls ++ [c] ∧
      c.targets = args ++ ((Split data '\n').map TrimSpace).filter (fun l => l ≠ []) ∧
      List.intercalate ['\n'] (Split data '\n') = data ∧
      (∀ l ∈ Split data '\n', '\n' ∉ l ∧
        ∃ pre post, l = pre ++ TrimSpace l ++ post ∧
          (∀ ch ∈ pre, IsSpace ch = true) ∧ (∀ ch ∈ post, IsSpace ch = true)) ∧
      (∀ t ∈ ((Split data '\n').map TrimSpace).filter (fun l => l ≠ []),
        t ≠ [] ∧ (∀ ch, t.head? = some ch → IsSpace ch = false) ∧
          (∀ ch, t.getLast? = some ch → IsSpace ch = false)) := by
  have hrun : (detectRunE env fl args w).2.detectCalls = w.detectCalls ++
      [{ targets := targetsLoop (Split data '\n') args, connectAddr := fl.connectAddr,
         threads := fl.threads, timeout := fl.timeout, verbose := !fl.silent }] := by
    simp only [detectRunE]
    rw [if_pos hFile, hRead]
  obtain ⟨-, hsep, hjoin⟩ := Split_spec data '\n'
  refine ⟨_, hrun, targetsLoop_eq _ _, hjoin, ?_, ?_⟩
  · intro l hl
    exact ⟨hsep l hl, (TrimSpace_spec l).1⟩
  · intro t ht
    obtain ⟨hmem, hne⟩ := List.mem_filter.mp ht
    obtain ⟨l, -, rfl⟩ := List.mem_map.mp hmem
    exact ⟨by simpa using hne, (TrimSpace_spec l).2.1, (TrimSpace_spec l).2.2⟩

/-- C5 at a concrete input: one positional target and a file of four lines,
two of them blank. -/
theorem detect_targets_from_file_witness :
    ∃ c, (detectRunE exampleDetectEnv { defaultFlags with targetsFile := toBytes "t.txt".toList }
        ["https://c.example/".toList] emptyWorld).2.detectCalls = [c] ∧
      c.targets = ["https://c.example/".toList, "https://a.example/".toList,
        "https://b.example/".toList] := by
  obtain ⟨c, hc, ht, -⟩ := detect_targets_from_file exampleDetectEnv
    { defaultFlags with targetsFile := toBytes "t.txt".toList } ["https://c.example/".toList]
    emptyWorld "  https://a.example/ \r\n\n\thttps://b.example/\n".toList (by decide) rfl
  refine ⟨c, hc, ?_⟩
  rw [ht]
  decide

/-- C6: for the result (headers, body, err) of `DoRequest`, the standard
output of `doAndPrintRequest` grows by: the line "Error is " with the error
text when err is not nil (nothing when it is nil), then one line
"name: value" for each returned header in the returned order, then an empty
line, then the printed lines of the body; so an error does not suppress the
data, and without an error the output is the same less the error line. -/
theorem doAndPrintRequest_error_then_data (D : RequestParams → Response)
    (params : RequestParams) (bodyLines : Int) (w : World) :
    (doAndPrintRequest D params bodyLines w).stdout =
      w.stdout
        ++ (match (D params).err with
            | some e => [toBytes "Error is ".toList ++ e ++ [10]]
            | none => [])
        ++ (D params).headers.map (fun h => h.Name ++ [58, 32] ++ h.Value ++ [10])
        ++ [[10]]
        ++ ((Split (D params).body 10).take
              (if bodyLines < 0 then (Split (D params).body 10).length
               else bodyLines.toNat)).map (fun l => l ++ [10]) := by
  rw [doAndPrintRequest_stdout]
  have h58 : toBytes ": ".toList = [58, 32] := by decide
  rw [h58]
  congr 2
  unfold printedLines
  by_cases hneg : bodyLines < 0
  · simp [hneg]
  · simp only [hneg, if_false]
    by_cases hle : bodyLines.toNat ≤ (Split (D params).body 10).length
    · rw [min_eq_left hle]
    · rw [min_eq_right (by omega), List.take_length, List.take_of_length_le (by omega)]

/-- C7: the body is cut at its line feeds into `k` segments, `k` being the
number of line feed bytes plus one (no segment holds a line feed, and the
segments joined by line feeds are the body); after the error line, the header
lines and the empty line, `doAndPrintRequest` prints the first
`min bodyLines k` segments for `bodyLines ≥ 0` (none for 0) and all `k`
segments for a negative `bodyLines`, each followed by a newline, and nothing
else. -/
theorem doAndPrintRequest_body_line_cap (D : RequestParams → Response)
    (params : RequestParams) (bodyLines : Int) (w : World) :
    (Split (D params).body 10).length = (D params).body.count 10 + 1 ∧
    (∀ seg ∈ Split (D params).body 10, 10 ∉ seg) ∧
    List.intercalate [10] (Split (D params).body 10) = (D params).body ∧
    (doAndPrintRequest D params bodyLines w).stdout.drop
        (w.stdout.length + (D params).err.toList.length + (D params).headers.length + 1) =
      ((Split (D params).body 10).take
        (if bodyLines < 0 then (D params).body.count 10 + 1
         else min bodyLines.toNat ((D params).body.count 10 + 1))).map
        (fun l => l ++ [10]) := by
  obtain ⟨hlen, hsep, hjoin⟩ := Split_spec (D params).body 10
  refine ⟨hlen, hsep, hjoin, ?_⟩
  rw [doAndPrintRequest_stdout, printedLines, hlen]
  have hpre : (w.stdout
        ++ (match (D params).err with
            | some e => [toBytes "Error is ".toList ++ e ++ [10]]
            | none => [])
        ++ (D params).headers.map
            (fun (h : Header) => h.Name ++ toBytes ": ".toList ++ h.Value ++ [10])
        ++ [[10]]).length =
      w.stdout.length + (D params).err.toList.length + (D params).headers.length + 1 := by
    cases (D params).err <;> simp <;> omega
  rw [← hpre, List.drop_left]

end Http2smugl
